import Mathlib

/-!
Verification of the vector-clock / Map CRDT core.

The development shallowly embeds the two source files of the repository:

* `vclock.rs` — the vector clock `VClock` with its operations `get`, `witness`,
  `merge`, `intersection`, `subtract`, `truncate` and the partial order used by
  `clock <= other`.
* `map.rs` — the composable `Map` CRDT with reset-remove semantics: `apply`
  (ops `Nop`, `Rm`, `Up`), `merge`, `truncate`, `get`, and the internal
  `apply_rm` / `apply_deferred`.

`BTreeMap<A, u64>` is embedded as a sorted association list over naturals
(actors and keys are instantiated at `Nat`, counters at `Nat`; `u64` overflow is
not exercised by any property considered here).  The Map is generic over the
nested value type `V` exactly as the source is generic over `V: Val<A>`; the
record `ValOps` plays the role of the `Causal + CmRDT + CvRDT + Default`
capability set.  `HashMap<VClock, BTreeSet<K>>` (the `deferred` field) is
embedded as an association list keyed by the clock, with `BTreeSet` as a sorted
list of keys; set-level equality coincides with list equality for the states
compared below.
-/

namespace Crdt

/-- Association-list lookup on `Nat`-keyed lists (`BTreeMap::get`). -/
def keyLookup {β : Type _} : List (Nat × β) → Nat → Option β
  | [], _ => none
  | (a, b) :: r, k => if k = a then some b else keyLookup r k

/-- Sorted insert-or-replace (`BTreeMap::insert`). -/
def insSorted {β : Type _} : List (Nat × β) → Nat → β → List (Nat × β)
  | [], k, v => [(k, v)]
  | (a, b) :: r, k, v =>
    if k < a then (k, v) :: (a, b) :: r
    else if k = a then (k, v) :: r
    else (a, b) :: insSorted r k v

/-- Remove a key (`BTreeMap::remove`), dropping the first matching binding. -/
def remKey {β : Type _} : List (Nat × β) → Nat → List (Nat × β)
  | [], _ => []
  | (a, b) :: r, k => if k = a then r else (a, b) :: remKey r k

/-- A `VClock` is its `dots` map, actor → counter, as a sorted association list. -/
abbrev VClock := List (Nat × Nat)

/-- VClock::get — the counter for the actor, `0` if absent. -/
def vcGet (u : VClock) (a : Nat) : Nat := (keyLookup u a).getD 0

/-- VClock::witness — store the counter if it is not already dominated. -/
def vcWitness (u : VClock) (a : Nat) (c : Nat) : VClock :=
  if c ≤ vcGet u a then u else insSorted u a c

/-- CvRDT merge for VClock: witness every dot of the other clock. -/
def vcMerge (u v : VClock) : VClock :=
  v.foldl (fun acc p => vcWitness acc p.1 p.2) u

/-- VClock::intersection — entries with the same actor and counter on both sides. -/
def vcIntersection (u v : VClock) : VClock :=
  u.filter (fun p => vcGet v p.1 = p.2)

/-- VClock::subtract — forget the actors whose counter in `v` dominates their counter
in `u` (actors absent from `v` are untouched, exactly as in the source's loop over
`other.iter()`). -/
def vcSubtract (u v : VClock) : VClock :=
  u.filter (fun p =>
    match keyLookup v p.1 with
    | none => true
    | some cv => decide (cv < p.2))

/-- Causal truncate for VClock: componentwise minimum, pruning zero counters. -/
def vcTruncate (u v : VClock) : VClock :=
  u.filterMap (fun p =>
    if 0 < min p.2 (vcGet v p.1) then some (p.1, min p.2 (vcGet v p.1)) else none)

/-- Pointwise domination over the entries of `u`: every dot of `u` is at or below
`v`.  This is exactly the universally quantified test inside `partial_cmp`. -/
def vcDomBy (u v : VClock) : Bool :=
  u.all (fun p => p.2 ≤ vcGet v p.1)

/-- The `clock <= other` test as `PartialOrd::le` computes it from `partial_cmp`:
structural equality first, then the `Greater` test, then the `Less` test. -/
def vcLe (u v : VClock) : Bool :=
  if u = v then true
  else if vcDomBy v u then false
  else vcDomBy u v

/-- Dot is a version marker for a single actor. -/
structure Dot where
  actor : Nat
  counter : Nat
deriving DecidableEq, Repr

/-- The capability set of a nested value type `V` — `Default + CmRDT + CvRDT +
Causal` from the source, with the nested op type `Vop`. -/
structure ValOps (V : Type) (Vop : Type) where
  default : V
  applyOp : V → Vop → V
  merge : V → V → V
  truncate : V → VClock → V

/-- The `VClock` instantiation of the capability set: `VClock` itself implements
`CmRDT` (apply a dot = witness it), `CvRDT` (merge) and `Causal` (truncate). -/
def vclockOps : ValOps VClock Dot :=
  ⟨[], fun v d => vcWitness v d.actor d.counter, vcMerge, vcTruncate⟩

/-- A Map entry: the clock of the actors that edited it, plus the nested CRDT. -/
structure Entry (V : Type) where
  clock : VClock
  val : V
deriving DecidableEq, Repr

/-- The Map CRDT state: version clock, entries, and deferred removes. -/
structure MapState (V : Type) where
  clock : VClock
  entries : List (Nat × Entry V)
  deferred : List (VClock × List Nat)
deriving DecidableEq, Repr

/-- Operations applicable to the Map CRDT (`Op` in the source). -/
inductive MapOp (V Vop : Type) where
  | nop
  | rm (clock : VClock) (key : Nat)
  | up (dot : Dot) (key : Nat) (op : Vop)
deriving DecidableEq

/-- Map::new -/
def mapNew (V : Type) : MapState V := ⟨[], [], []⟩

/-- Sorted set insert for `BTreeSet<K>`. -/
def keyInsertNat : List Nat → Nat → List Nat
  | [], k => [k]
  | a :: r, k =>
    if k < a then k :: a :: r
    else if k = a then a :: r
    else a :: keyInsertNat r k

/-- The `deferred.entry(clock).or_insert(BTreeSet::new()).insert(key)` pattern:
add the key under the clock, creating the record if the clock is new. -/
def defInsert : List (VClock × List Nat) → VClock → Nat → List (VClock × List Nat)
  | [], c, k => [(c, [k])]
  | (c0, ks) :: r, c, k =>
    if c = c0 then (c0, keyInsertNat ks k) :: r
    else (c0, ks) :: defInsert r c k

/-- The `HashMap::insert` (replace) pattern used when `Causal::truncate` rebuilds
`deferred`. -/
def defReplace : List (VClock × List Nat) → VClock → List Nat → List (VClock × List Nat)
  | [], c, ks => [(c, ks)]
  | (c0, ks0) :: r, c, ks =>
    if c = c0 then (c0, ks) :: r
    else (c0, ks0) :: defReplace r c ks

/-- The guard at the top of `Map::apply_rm`: record the key under the clock in
`deferred` when the clock is not dominated by the map clock. -/
def rmDeferred {V : Type} (s : MapState V) (key : Nat) (c : VClock) :
    List (VClock × List Nat) :=
  if vcLe c s.clock then s.deferred else defInsert s.deferred c key

/-- Map::apply_rm — defer the remove when its clock is not dominated, and subtract
the clock from the existing entry, dropping the entry if its clock empties. -/
def applyRm {V Vop : Type} (O : ValOps V Vop) (s : MapState V) (key : Nat)
    (c : VClock) : MapState V :=
  match keyLookup s.entries key with
  | none => { s with deferred := rmDeferred s key c }
  | some e =>
    if (vcSubtract e.clock c).isEmpty then
      { s with deferred := rmDeferred s key c, entries := remKey s.entries key }
    else
      { s with deferred := rmDeferred s key c,
               entries := insSorted s.entries key
                 ⟨vcSubtract e.clock c, O.truncate e.val c⟩ }

/-- Flatten a deferred map to its (clock, key) pairs, mirroring the source's
nested `for (clock, keys) { for key in keys }` loops. -/
def defPairs : List (VClock × List Nat) → List (VClock × Nat)
  | [] => []
  | (c, ks) :: r => ks.map (fun k => (c, k)) ++ defPairs r

/-- Map::apply_deferred — snapshot and clear `deferred`, then replay every
recorded remove through `apply_rm`. -/
def applyDeferred {V Vop : Type} (O : ValOps V Vop) (s : MapState V) : MapState V :=
  (defPairs s.deferred).foldl (fun acc p => applyRm O acc p.2 p.1)
    { s with deferred := [] }

/-- CmRDT apply for the Map (`Op::Nop`, `Op::Rm`, `Op::Up`). -/
def applyMap {V Vop : Type} (O : ValOps V Vop) (s : MapState V)
    (op : MapOp V Vop) : MapState V :=
  match op with
  | .nop => s
  | .rm c k => applyRm O s k c
  | .up d k vop =>
    if d.counter ≤ vcGet s.clock d.actor then s
    else
      applyDeferred O
        { s with
          entries := insSorted s.entries k
            ⟨vcWitness ((keyLookup s.entries k).getD ⟨[], O.default⟩).clock d.actor d.counter,
             O.applyOp ((keyLookup s.entries k).getD ⟨[], O.default⟩).val vop⟩,
          clock := vcWitness s.clock d.actor d.counter }

/-- The branch of `merge` for an entry present on one side only (also reused by
the source for the `other_remaining` loop with the roles swapped): subtract the
other side's clock; if nothing survives the entry was observed and dropped there,
otherwise truncate the value by the dots the other side deleted. -/
def mergeLeftOnly {V Vop : Type} (O : ValOps V Vop) (otherClock : VClock)
    (e : Entry V) : Option (Entry V) :=
  let c2 := vcSubtract e.clock otherClock
  if c2.isEmpty then none
  else some ⟨c2, O.truncate e.val (vcSubtract otherClock c2)⟩

/-- The branch of `merge` for an entry present on both sides.  Note that the
source shadows `common` with the merged union before computing
`actors_who_have_deleted_this_entry`, so the value is truncated by
`(aliveL ∪ aliveR) ∖ union` (the subtraction uses the union, not the original
intersection). -/
def mergeBoth {V Vop : Type} (O : ValOps V Vop) (selfClock otherClock : VClock)
    (e eo : Entry V) : Option (Entry V) :=
  let common := vcIntersection e.clock eo.clock
  let a := vcSubtract (vcSubtract e.clock common) otherClock
  let b := vcSubtract (vcSubtract eo.clock common) selfClock
  let union := vcMerge (vcMerge common a) b
  if union.isEmpty then none
  else some ⟨union, O.truncate (O.merge e.val eo.val) (vcSubtract (vcMerge a b) union)⟩

/-- The source's loop over `self.entries`, threading `other_remaining`: returns
the kept entries contributed by the left side together with the final
`other_remaining`.  The `unwrap` in the both-present branch is embedded as
`remKey` here (total); `mergeLoopChecked` models the panic. -/
def mergeLoop {V Vop : Type} (O : ValOps V Vop) (Rorig : List (Nat × Entry V))
    (selfClock otherClock : VClock) :
    List (Nat × Entry V) → List (Nat × Entry V) →
    List (Nat × Entry V) × List (Nat × Entry V)
  | [], rem => ([], rem)
  | (k, eL) :: rest, rem =>
    match keyLookup Rorig k with
    | none =>
      let pr := mergeLoop O Rorig selfClock otherClock rest rem
      (match mergeLeftOnly O otherClock eL with
       | none => pr.1
       | some e => insSorted pr.1 k e, pr.2)
    | some eR =>
      let pr := mergeLoop O Rorig selfClock otherClock rest (remKey rem k)
      (match mergeBoth O selfClock otherClock eL eR with
       | none => pr.1
       | some e => insSorted pr.1 k e, pr.2)

/-- CvRDT merge for the Map.  Phase 1 builds `keep` from both entry loops; the
replay of the peer's deferred removes runs against the pre-merge state, so only
its effect on `deferred` survives the `self.entries = keep` overwrite; then the
clocks merge and `apply_deferred` drains after the final clock merge. -/
def mergeMap {V Vop : Type} (O : ValOps V Vop) (L R : MapState V) : MapState V :=
  let pr := mergeLoop O R.entries L.clock R.clock L.entries R.entries
  let keep := pr.2.foldl
    (fun ks p =>
      match mergeLeftOnly O L.clock p.2 with
      | none => ks
      | some e => insSorted ks p.1 e) pr.1
  let d := (defPairs R.deferred).foldl
    (fun d p => if vcLe p.1 L.clock then d else defInsert d p.1 p.2) L.deferred
  applyDeferred O { clock := vcMerge L.clock R.clock, entries := keep, deferred := d }

/-- Checked variant of the entry loop in which the
`other_remaining.remove(&key).unwrap()` of the both-present branch is modelled
as a fallible step: `none` is the panic. -/
def mergeLoopChecked {V Vop : Type} (O : ValOps V Vop) (Rorig : List (Nat × Entry V))
    (selfClock otherClock : VClock) :
    List (Nat × Entry V) → List (Nat × Entry V) →
    Option (List (Nat × Entry V) × List (Nat × Entry V))
  | [], rem => some ([], rem)
  | (k, eL) :: rest, rem =>
    match keyLookup Rorig k with
    | none =>
      match mergeLoopChecked O Rorig selfClock otherClock rest rem with
      | none => none
      | some pr =>
        some (match mergeLeftOnly O otherClock eL with
              | none => pr.1
              | some e => insSorted pr.1 k e, pr.2)
    | some eR =>
      match keyLookup rem k with
      | none => none
      | some _ =>
        match mergeLoopChecked O Rorig selfClock otherClock rest (remKey rem k) with
        | none => none
        | some pr =>
          some (match mergeBoth O selfClock otherClock eL eR with
                | none => pr.1
                | some e => insSorted pr.1 k e, pr.2)

/-- Checked variant of `mergeMap` (panic = `none`). -/
def mergeMapChecked {V Vop : Type} (O : ValOps V Vop) (L R : MapState V) :
    Option (MapState V) :=
  match mergeLoopChecked O R.entries L.clock R.clock L.entries R.entries with
  | none => none
  | some pr =>
    let keep := pr.2.foldl
      (fun ks p =>
        match mergeLeftOnly O L.clock p.2 with
        | none => ks
        | some e => insSorted ks p.1 e) pr.1
    let d := (defPairs R.deferred).foldl
      (fun d p => if vcLe p.1 L.clock then d else defInsert d p.1 p.2) L.deferred
    some (applyDeferred O { clock := vcMerge L.clock R.clock, entries := keep, deferred := d })

/-- Causal truncate for the Map: subtract the clock from every entry clock
(dropping emptied entries, recursively truncating surviving values), rebuild
`deferred` keeping only non-empty remainders, and subtract from the map clock. -/
def truncateMap {V Vop : Type} (O : ValOps V Vop) (s : MapState V) (c : VClock) :
    MapState V :=
  { clock := vcSubtract s.clock c,
    entries := s.entries.filterMap (fun p =>
      let c2 := vcSubtract p.2.clock c
      if c2.isEmpty then none else some (p.1, ⟨c2, O.truncate p.2.val c⟩)),
    deferred := s.deferred.foldl (fun d p =>
      let rc := vcSubtract p.1 c
      if rc.isEmpty then d else defReplace d rc p.2) [] }

/-- The read context returned by `Map::get` / `Map::len`. -/
structure ReadCtx (V : Type) where
  addClock : VClock
  rmClock : VClock
  val : Option V
deriving DecidableEq

/-- Map::get — the `rm_clock` is the entry's clock, or the empty clock when the
key is absent. -/
def mapGet {V : Type} (s : MapState V) (k : Nat) : ReadCtx V :=
  ⟨s.clock,
   ((keyLookup s.entries k).map (fun e => e.clock)).getD [],
   (keyLookup s.entries k).map (fun e => e.val)⟩

/-- Op of the modelled multi-value register: `mvreg::Op::Put { clock, val }`. -/
inductive MVOp where
  | put (clock : VClock) (val : Nat)
deriving DecidableEq

/-- Modelled from the spec: the state of the multi-value register leaf CRDT
(`MVReg`), used by the spec's concrete scenarios S1-S3 but whose source file is
not under src/.  Per the spec it is a leaf value type satisfying the capability
set; its state is the set of concurrently written values, each tagged with the
clock of the write. -/
abbrev MVReg := List (VClock × Nat)

/-- Modelled from the spec: writing a value replaces every value whose clock the
write's clock dominates and keeps concurrent values (S1: after the concurrent
set the register holds both `bob` and `clyde`). -/
def mvApply (r : MVReg) (o : MVOp) : MVReg :=
  match o with
  | .put c v => r.filter (fun p => !(vcLe p.1 c)) ++ [(c, v)]

/-- Modelled from the spec: state-based join of two registers — keep the values
of each side that the other side has not superseded. -/
def mvMerge (r s : MVReg) : MVReg :=
  r.filter (fun p => !(s.any (fun q => (p.1 != q.1) && vcLe p.1 q.1))) ++
  s.filter (fun q => !(r.any (fun p => vcLe q.1 p.1)))

/-- Modelled from the spec: `truncate` removes the causal contribution of every
dot dominated by the argument clock — each tagged clock forgets those dots, and
a value whose entire causal context is forgotten disappears. -/
def mvTruncate (r : MVReg) (c : VClock) : MVReg :=
  r.filterMap (fun p =>
    let c2 := vcSubtract p.1 c
    if c2.isEmpty then none else some (c2, p.2))

/-- The modelled multi-value register as a nested value type. -/
def mvregOps : ValOps MVReg MVOp := ⟨[], mvApply, mvMerge, mvTruncate⟩

/-- The both-present merge branch as claim C6 states it: identical to
`mergeBoth` except that the value is truncated by `(aliveL ∪ aliveR) ∖ common`
with `common` the original intersection.  This definition follows the claim's
words, to be compared with `mergeBoth`, which follows the code (where the
subtraction uses the shadowed union). -/
def mergeBothClaimed {V Vop : Type} (O : ValOps V Vop) (selfClock otherClock : VClock)
    (e eo : Entry V) : Option (Entry V) :=
  let common := vcIntersection e.clock eo.clock
  let aliveL := vcSubtract (vcSubtract e.clock common) otherClock
  let aliveR := vcSubtract (vcSubtract eo.clock common) selfClock
  let union := vcMerge (vcMerge common aliveL) aliveR
  if union.isEmpty then none
  else some ⟨union,
    O.truncate (O.merge e.val eo.val) (vcSubtract (vcMerge aliveL aliveR) common)⟩

/-- Replica L of the merge-commutativity failing input: a fresh map that applied
`Up { dot: (1,1), key: 0, op: Dot(1,1) }` (nested value type `VClock`). -/
def c1mapL : MapState VClock :=
  applyMap vclockOps (mapNew VClock) (.up ⟨1, 1⟩ 0 ⟨1, 1⟩)

/-- Replica R of the merge-commutativity failing input: a fresh map that applied
`Rm { clock: (1→1), key: 0 }` — the op `rm` synthesizes from an `RmCtx` read off
replica L — so the remove is deferred. -/
def c1mapR : MapState VClock :=
  applyMap vclockOps (mapNew VClock) (.rm [(1, 1)] 0)

/-- Left replica of the C6 counterexample input: key 0 written by dot (1,1). -/
def c6mapL : MapState VClock :=
  ⟨[(1, 1)], [(0, ⟨[(1, 1)], [(1, 5)]⟩)], []⟩

/-- Right replica of the C6 counterexample input: key 0 written by dot (2,1). -/
def c6mapR : MapState VClock :=
  ⟨[(2, 1)], [(0, ⟨[(2, 1)], []⟩)], []⟩

/-- Map states reachable from `Map::new()` through `apply`, `merge` and
`truncate`. -/
inductive Reachable {V Vop : Type} (O : ValOps V Vop) : MapState V → Prop
  | new : Reachable O (mapNew V)
  | apply {s : MapState V} (op : MapOp V Vop) :
      Reachable O s → Reachable O (applyMap O s op)
  | merge {s t : MapState V} :
      Reachable O s → Reachable O t → Reachable O (mergeMap O s t)
  | trunc {s : MapState V} (c : VClock) :
      Reachable O s → Reachable O (truncateMap O s c)

/-- Strictly key-sorted association list — the `BTreeMap` representation
invariant. -/
def KSorted {β : Type _} (l : List (Nat × β)) : Prop :=
  l.Pairwise (fun p q => p.1 < q.1)

instance {β : Type _} (l : List (Nat × β)) : Decidable (KSorted l) :=
  inferInstanceAs (Decidable (l.Pairwise (fun p q : Nat × β => p.1 < q.1)))

/-- No entry carries counter zero — the pruning invariant of `VClock`. -/
def NoZero (u : VClock) : Prop := ∀ p ∈ u, p.2 ≠ 0

instance (u : VClock) : Decidable (NoZero u) :=
  inferInstanceAs (Decidable (∀ p ∈ u, p.2 ≠ 0))

/-- Well-formed vector clock: sorted dots and no zero counters. -/
def VCWf (u : VClock) : Prop := KSorted u ∧ NoZero u

instance (u : VClock) : Decidable (VCWf u) :=
  inferInstanceAs (Decidable (KSorted u ∧ NoZero u))

/-- The remove with clock `c` has taken effect on the entry under `k`: if the
entry is still present, subtracting `c` from its clock changes nothing (no
surviving dot of the entry is dominated by `c`). -/
def removalApplied {V : Type} (s : MapState V) (k : Nat) (c : VClock) : Prop :=
  ∀ e, keyLookup s.entries k = some e → vcSubtract e.clock c = e.clock

/-- The clock-dominance invariant of claim C4: the map clock is sorted, and every
entry clock is sorted and pointwise dominated by the map clock. -/
def MapInv {V : Type} (s : MapState V) : Prop :=
  KSorted s.clock ∧ ∀ p ∈ s.entries, KSorted p.2.clock ∧ vcDomBy p.2.clock s.clock = true

/-! ### Association-list lemmas -/

theorem keyLookup_cons {β : Type _} (a : Nat) (b : β) (r : List (Nat × β)) (k : Nat) :
    keyLookup ((a, b) :: r) k = if k = a then some b else keyLookup r k := rfl

theorem keyLookup_insSorted {β : Type _} (l : List (Nat × β)) (k : Nat) (v : β)
    (x : Nat) :
    keyLookup (insSorted l k v) x = if x = k then some v else keyLookup l x := by
  induction l with
  | nil => by_cases hx : x = k <;> simp [insSorted, keyLookup, hx]
  | cons hd tl ih =>
    obtain ⟨a, b⟩ := hd
    simp only [insSorted]
    by_cases h1 : k < a
    · rw [if_pos h1]
      by_cases hx : x = k
      · simp [keyLookup, hx]
      · simp [keyLookup, hx]
    · rw [if_neg h1]
      by_cases h2 : k = a
      · rw [if_pos h2]
        subst h2
        by_cases hx : x = k
        · simp [keyLookup, hx]
        · simp [keyLookup, hx]
      · rw [if_neg h2]
        have hak : a < k := by omega
        by_cases hx : x = a
        · subst hx
          have hxk : ¬ (x = k) := by omega
          simp [keyLookup, hxk]
        · simp [keyLookup, hx, ih]

theorem mem_insSorted {β : Type _} {l : List (Nat × β)} {k : Nat} {v : β}
    {p : Nat × β} (h : p ∈ insSorted l k v) : p = (k, v) ∨ p ∈ l := by
  induction l with
  | nil =>
    simp only [insSorted, List.mem_singleton] at h
    exact Or.inl h
  | cons hd tl ih =>
    obtain ⟨a, b⟩ := hd
    simp only [insSorted] at h
    split_ifs at h with h1 h2
    · rcases List.mem_cons.mp h with h' | h'
      · exact Or.inl h'
      · exact Or.inr h'
    · rcases List.mem_cons.mp h with h' | h'
      · exact Or.inl h'
      · exact Or.inr (List.mem_cons_of_mem _ h')
    · rcases List.mem_cons.mp h with h' | h'
      · exact Or.inr (h' ▸ List.mem_cons_self _ _)
      · rcases ih h' with h'' | h''
        · exact Or.inl h''
        · exact Or.inr (List.mem_cons_of_mem _ h'')

theorem mem_remKey {β : Type _} {l : List (Nat × β)} {k : Nat} {p : Nat × β}
    (h : p ∈ remKey l k) : p ∈ l := by
  induction l with
  | nil => simp [remKey] at h
  | cons hd tl ih =>
    obtain ⟨a, b⟩ := hd
    simp only [remKey] at h
    split_ifs at h with h1
    · exact List.mem_cons_of_mem _ h
    · rcases List.mem_cons.mp h with h' | h'
      · exact List.mem_cons.mpr (Or.inl h')
      · exact List.mem_cons_of_mem _ (ih h')

theorem keyLookup_remKey_ne {β : Type _} (l : List (Nat × β)) (k x : Nat)
    (h : x ≠ k) : keyLookup (remKey l k) x = keyLookup l x := by
  induction l with
  | nil => simp [remKey]
  | cons hd tl ih =>
    obtain ⟨a, b⟩ := hd
    simp only [remKey]
    split_ifs with h1
    · subst h1
      simp [keyLookup, h]
    · by_cases hx : x = a <;> simp [keyLookup, hx, ih]

theorem keyLookup_eq_some_mem {β : Type _} {l : List (Nat × β)} {a : Nat} {b : β}
    (h : keyLookup l a = some b) : (a, b) ∈ l := by
  induction l with
  | nil => simp [keyLookup] at h
  | cons hd tl ih =>
    obtain ⟨a0, b0⟩ := hd
    simp only [keyLookup] at h
    split_ifs at h with h1
    · subst h1
      simp at h
      simp [h]
    · exact List.mem_cons_of_mem _ (ih h)

theorem keyLookup_eq_none_of_not_mem {β : Type _} {l : List (Nat × β)} {a : Nat}
    (h : ∀ b, (a, b) ∉ l) : keyLookup l a = none := by
  induction l with
  | nil => simp [keyLookup]
  | cons hd tl ih =>
    obtain ⟨a0, b0⟩ := hd
    simp only [keyLookup]
    split_ifs with h1
    · subst h1
      exact absurd (List.mem_cons_self _ _) (h b0)
    · exact ih fun b hb => h b (List.mem_cons_of_mem _ hb)

theorem keyLookup_ksorted_of_mem {β : Type _} {l : List (Nat × β)}
    (hs : KSorted l) {a : Nat} {b : β} (h : (a, b) ∈ l) :
    keyLookup l a = some b := by
  induction l with
  | nil => simp at h
  | cons hd tl ih =>
    obtain ⟨a0, b0⟩ := hd
    rcases List.mem_cons.mp h with h' | h'
    · rw [Prod.mk.injEq] at h'
      obtain ⟨h1, h2⟩ := h'
      subst h1
      subst h2
      simp [keyLookup]
    · have ha0 : a0 < a := (List.pairwise_cons.mp hs).1 _ h'
      have hne : ¬ (a = a0) := by omega
      simp only [keyLookup, hne, if_false]
      exact ih (List.pairwise_cons.mp hs).2 h'

theorem ksorted_insSorted {β : Type _} {l : List (Nat × β)} (hs : KSorted l)
    (k : Nat) (v : β) : KSorted (insSorted l k v) := by
  induction l with
  | nil => simp [insSorted, KSorted]
  | cons hd tl ih =>
    obtain ⟨a, b⟩ := hd
    have hhd := (List.pairwise_cons.mp hs).1
    have htl := (List.pairwise_cons.mp hs).2
    simp only [insSorted]
    split_ifs with h1 h2
    · refine List.pairwise_cons.mpr ⟨?_, hs⟩
      intro q hq
      rcases List.mem_cons.mp hq with h' | h'
      · subst h'
        exact h1
      · exact lt_trans h1 (hhd q h')
    · subst h2
      exact List.pairwise_cons.mpr ⟨fun q hq => hhd q hq, htl⟩
    · have hak : a < k := by omega
      refine List.pairwise_cons.mpr ⟨?_, ih htl⟩
      intro q hq
      rcases mem_insSorted hq with h' | h'
      · subst h'
        exact hak
      · exact hhd q h'

theorem ksorted_filter {β : Type _} {l : List (Nat × β)} (hs : KSorted l)
    (p : Nat × β → Bool) : KSorted (l.filter p) :=
  List.Pairwise.sublist (List.filter_sublist l) hs

theorem nodupkeys_of_ksorted {β : Type _} {l : List (Nat × β)} (hs : KSorted l) :
    (l.map Prod.fst).Nodup := by
  induction l with
  | nil => simp
  | cons hd tl ih =>
    obtain ⟨a, b⟩ := hd
    have hhd := (List.pairwise_cons.mp hs).1
    refine List.nodup_cons.mpr ⟨?_, ih (List.pairwise_cons.mp hs).2⟩
    intro hmem
    rcases List.mem_map.mp hmem with ⟨q, hq, hq1⟩
    have := hhd q hq
    omega

theorem insSorted_lookup_self {β : Type _} {l : List (Nat × β)} (hs : KSorted l)
    {k : Nat} {v : β} (h : keyLookup l k = some v) : insSorted l k v = l := by
  induction l with
  | nil => simp [keyLookup] at h
  | cons hd tl ih =>
    obtain ⟨a, b⟩ := hd
    simp only [keyLookup] at h
    by_cases h1 : k = a
    · subst h1
      simp at h
      simp [insSorted, h]
    · simp only [h1, if_false] at h
      have hmem := keyLookup_eq_some_mem h
      have hak : a < k := (List.pairwise_cons.mp hs).1 _ hmem
      have h2 : ¬ (k < a) := by omega
      simp [insSorted, h2, h1, ih (List.pairwise_cons.mp hs).2 h]

theorem insSorted_insSorted_same {β : Type _} (l : List (Nat × β)) (k : Nat)
    (v : β) : insSorted (insSorted l k v) k v = insSorted l k v := by
  induction l with
  | nil => simp [insSorted]
  | cons hd tl ih =>
    obtain ⟨a, b⟩ := hd
    simp only [insSorted]
    split_ifs with h1 h2
    · simp [insSorted, h1]
    · simp [insSorted, h2]
    · have hak : a < k := by omega
      simp [insSorted, h1, h2, ih]

theorem keyLookup_remKey_self {β : Type _} {l : List (Nat × β)}
    (hn : (l.map Prod.fst).Nodup) (k : Nat) :
    keyLookup (remKey l k) k = none := by
  induction l with
  | nil => simp [remKey, keyLookup]
  | cons hd tl ih =>
    obtain ⟨a, b⟩ := hd
    have hn' := List.nodup_cons.mp hn
    simp only [remKey]
    split_ifs with h1
    · subst h1
      exact keyLookup_eq_none_of_not_mem fun b hb =>
        hn'.1 (List.mem_map.mpr ⟨(k, b), hb, rfl⟩)
    · simp [keyLookup, h1, ih hn'.2]

/-! ### VClock lemmas -/

theorem vcGet_nil (x : Nat) : vcGet [] x = 0 := rfl

theorem vcGet_cons (a : Nat) (c : Nat) (tl : VClock) (x : Nat) :
    vcGet ((a, c) :: tl) x = if x = a then c else vcGet tl x := by
  by_cases hx : x = a <;> simp [vcGet, keyLookup, hx]

theorem vcGet_insSorted (u : VClock) (a : Nat) (c : Nat) (x : Nat) :
    vcGet (insSorted u a c) x = if x = a then c else vcGet u x := by
  by_cases hx : x = a <;> simp [vcGet, keyLookup_insSorted, hx]

theorem vcGet_vcWitness (u : VClock) (a : Nat) (c : Nat) (x : Nat) :
    vcGet (vcWitness u a c) x = if x = a then max (vcGet u a) c else vcGet u x := by
  unfold vcWitness
  by_cases h : c ≤ vcGet u a
  · rw [if_pos h]
    by_cases hx : x = a
    · rw [if_pos hx, hx]
      exact (Nat.max_eq_left h).symm
    · rw [if_neg hx]
  · rw [if_neg h, vcGet_insSorted]
    by_cases hx : x = a
    · rw [if_pos hx, if_pos hx]
      have hle : vcGet u a ≤ c := le_of_not_le h
      exact (Nat.max_eq_right hle).symm
    · rw [if_neg hx, if_neg hx]

theorem vcMerge_nil (u : VClock) : vcMerge u [] = u := rfl

theorem vcMerge_cons (u : VClock) (p : Nat × Nat) (tl : VClock) :
    vcMerge u (p :: tl) = vcMerge (vcWitness u p.1 p.2) tl := rfl

theorem ksorted_vcWitness {u : VClock} (hs : KSorted u) (a : Nat) (c : Nat) :
    KSorted (vcWitness u a c) := by
  unfold vcWitness
  split_ifs
  · exact hs
  · exact ksorted_insSorted hs a c

theorem ksorted_vcMerge {u : VClock} (hs : KSorted u) (v : VClock) :
    KSorted (vcMerge u v) := by
  induction v generalizing u with
  | nil => exact hs
  | cons hd tl ih => exact ih (ksorted_vcWitness hs hd.1 hd.2)

theorem ksorted_vcSubtract {u : VClock} (hs : KSorted u) (v : VClock) :
    KSorted (vcSubtract u v) := ksorted_filter hs _

theorem ksorted_vcIntersection {u : VClock} (hs : KSorted u) (v : VClock) :
    KSorted (vcIntersection u v) := ksorted_filter hs _

theorem ksorted_filterMap_keys {β γ : Type _} {l : List (Nat × β)} (hs : KSorted l)
    (f : Nat × β → Option (Nat × γ)) (hf : ∀ p q, f p = some q → q.1 = p.1) :
    KSorted (l.filterMap f) := by
  induction l with
  | nil => simp [KSorted]
  | cons hd tl ih =>
    have hhd := (List.pairwise_cons.mp hs).1
    have htl := (List.pairwise_cons.mp hs).2
    cases hfh : f hd with
    | none =>
      simp only [List.filterMap_cons, hfh]
      exact ih htl
    | some q =>
      simp only [List.filterMap_cons, hfh]
      refine List.pairwise_cons.mpr ⟨?_, ih htl⟩
      intro r hr
      rcases List.mem_filterMap.mp hr with ⟨s, hsmem, hes⟩
      rw [hf hd q hfh, hf s r hes]
      exact hhd s hsmem

theorem ksorted_vcTruncate {u : VClock} (hs : KSorted u) (v : VClock) :
    KSorted (vcTruncate u v) := by
  refine ksorted_filterMap_keys hs _ ?_
  intro p q h
  by_cases hm : 0 < min p.2 (vcGet v p.1)
  · rw [if_pos hm] at h
    cases h
    rfl
  · rw [if_neg hm] at h
    cases h

theorem mem_vcSubtract {u v : VClock} {p : Nat × Nat}
    (h : p ∈ vcSubtract u v) : p ∈ u := (List.mem_filter.mp h).1

theorem mem_vcIntersection {u v : VClock} {p : Nat × Nat}
    (h : p ∈ vcIntersection u v) : p ∈ u := (List.mem_filter.mp h).1

theorem vcSubtract_nil (u : VClock) : vcSubtract u [] = u := by
  apply List.filter_eq_self.mpr
  intro p _
  simp [keyLookup]

theorem vcSubtract_idem (u v : VClock) :
    vcSubtract (vcSubtract u v) v = vcSubtract u v := by
  apply List.filter_eq_self.mpr
  intro p hp
  exact (List.mem_filter.mp hp).2

theorem not_mem_of_keyLookup_none {β : Type _} {l : List (Nat × β)} {x : Nat}
    (h : keyLookup l x = none) : ∀ b, (x, b) ∉ l := by
  induction l with
  | nil => simp
  | cons hd tl ih =>
    obtain ⟨a, c⟩ := hd
    by_cases h1 : x = a
    · rw [keyLookup_cons, if_pos h1] at h
      cases h
    · rw [keyLookup_cons, if_neg h1] at h
      intro b hb
      rcases List.mem_cons.mp hb with h' | h'
      · rw [Prod.mk.injEq] at h'
        exact h1 h'.1
      · exact ih h b h'

theorem keyLookup_filter_none {β : Type _} {l : List (Nat × β)} {x : Nat}
    (h : keyLookup l x = none) (p : Nat × β → Bool) :
    keyLookup (l.filter p) x = none :=
  keyLookup_eq_none_of_not_mem fun b hb =>
    not_mem_of_keyLookup_none h b (List.mem_filter.mp hb).1

theorem keyLookup_vcSubtract {u : VClock} (hs : KSorted u) (v : VClock) (x : Nat) :
    keyLookup (vcSubtract u v) x =
      match keyLookup u x with
      | none => none
      | some c =>
        match keyLookup v x with
        | none => some c
        | some cv => if cv < c then some c else none := by
  induction u with
  | nil => simp [vcSubtract, keyLookup]
  | cons hd tl ih =>
    obtain ⟨a, c⟩ := hd
    have hhd := (List.pairwise_cons.mp hs).1
    have htl := (List.pairwise_cons.mp hs).2
    by_cases hx : x = a
    · subst hx
      have hnone : keyLookup tl x = none :=
        keyLookup_eq_none_of_not_mem fun b hb => by
          have h2 := hhd (x, b) hb
          simp only [] at h2
          omega
      have hsubnone : keyLookup (vcSubtract tl v) x = none :=
        keyLookup_filter_none hnone _
      rw [keyLookup_cons, if_pos rfl]
      cases hkv : keyLookup v x with
      | none =>
        have hred : vcSubtract ((x, c) :: tl) v = (x, c) :: vcSubtract tl v := by
          simp [vcSubtract, List.filter_cons, hkv]
        rw [hred, keyLookup_cons, if_pos rfl]
      | some cv =>
        by_cases hlt : cv < c
        · have hred : vcSubtract ((x, c) :: tl) v = (x, c) :: vcSubtract tl v := by
            simp [vcSubtract, List.filter_cons, hkv, hlt]
          rw [hred, keyLookup_cons, if_pos rfl]
          simp [hlt]
        · have hred : vcSubtract ((x, c) :: tl) v = vcSubtract tl v := by
            simp [vcSubtract, List.filter_cons, hkv, hlt]
          rw [hred, hsubnone]
          simp [hlt]
    · have hred : keyLookup (vcSubtract ((a, c) :: tl) v) x =
          keyLookup (vcSubtract tl v) x := by
        simp only [vcSubtract, List.filter_cons]
        split
        · rw [keyLookup_cons, if_neg hx]
        · rfl
      rw [hred, keyLookup_cons, if_neg hx]
      exact ih htl

theorem vcGet_of_keys_gt {tl : VClock} {x : Nat}
    (h : ∀ p ∈ tl, x < p.1) : vcGet tl x = 0 := by
  have hn : keyLookup tl x = none :=
    keyLookup_eq_none_of_not_mem fun b hb => absurd (h (x, b) hb) (by simp)
  simp [vcGet, hn]

theorem vcGet_cons_zero_of_lt {a : Nat} {c : Nat} {tl : VClock}
    (hs : KSorted ((a, c) :: tl)) {x : Nat} (hx : x < a) :
    vcGet ((a, c) :: tl) x = 0 := by
  apply vcGet_of_keys_gt
  intro p hp
  rcases List.mem_cons.mp hp with h' | h'
  · rw [h']
    exact hx
  · have h2 : a < p.1 := (List.pairwise_cons.mp hs).1 p h'
    omega

theorem vcGet_tail_zero {a : Nat} {c : Nat} {tl : VClock}
    (hs : KSorted ((a, c) :: tl)) : vcGet tl a = 0 := by
  apply vcGet_of_keys_gt
  intro p hp
  exact (List.pairwise_cons.mp hs).1 p hp

theorem vcGet_vcMerge {v : VClock} (hv : KSorted v) (u : VClock) (x : Nat) :
    vcGet (vcMerge u v) x = max (vcGet u x) (vcGet v x) := by
  induction v generalizing u with
  | nil => simp [vcMerge_nil, vcGet, keyLookup]
  | cons hd tl ih =>
    obtain ⟨a, c⟩ := hd
    have htl := (List.pairwise_cons.mp hv).2
    rw [vcMerge_cons, ih htl, vcGet_vcWitness, vcGet_cons]
    by_cases hx : x = a
    · rw [if_pos hx, if_pos hx]
      have hzero : vcGet tl x = 0 := by
        rw [hx]
        exact vcGet_tail_zero hv
      rw [hzero, hx]
      simp

    · rw [if_neg hx, if_neg hx]

theorem vcGet_vcSubtract_le {u : VClock} (hs : KSorted u) (v : VClock) (x : Nat) :
    vcGet (vcSubtract u v) x ≤ vcGet u x := by
  simp only [vcGet, keyLookup_vcSubtract hs]
  cases hku : keyLookup u x with
  | none => simp
  | some c =>
    cases hkv : keyLookup v x with
    | none => simp
    | some cv => by_cases hlt : cv < c <;> simp [hlt]

theorem vcTruncate_cons (a : Nat) (c : Nat) (tl v : VClock) :
    vcTruncate ((a, c) :: tl) v =
      if 0 < min c (vcGet v a) then (a, min c (vcGet v a)) :: vcTruncate tl v
      else vcTruncate tl v := by
  simp only [vcTruncate, List.filterMap_cons]
  by_cases h : 0 < min c (vcGet v a)
  · rw [if_pos h, if_pos h]
  · rw [if_neg h, if_neg h]

theorem keyLookup_vcTruncate_none {tl : VClock} {x : Nat}
    (h : keyLookup tl x = none) (v : VClock) :
    keyLookup (vcTruncate tl v) x = none := by
  apply keyLookup_eq_none_of_not_mem
  intro b hb
  rcases List.mem_filterMap.mp hb with ⟨p, hp, he⟩
  split_ifs at he with hm
  · injection he with he'
    rw [Prod.mk.injEq] at he'
    obtain ⟨h1, h2⟩ := he'
    have hp' : (p.1, p.2) ∈ tl := by simpa using hp
    rw [h1] at hp'
    exact not_mem_of_keyLookup_none h p.2 hp'

theorem keyLookup_vcTruncate {u : VClock} (hs : KSorted u) (v : VClock) (x : Nat) :
    keyLookup (vcTruncate u v) x =
      if 0 < min (vcGet u x) (vcGet v x) then some (min (vcGet u x) (vcGet v x))
      else none := by
  induction u with
  | nil => simp [vcTruncate, keyLookup, vcGet]
  | cons hd tl ih =>
    obtain ⟨a, c⟩ := hd
    have htl := (List.pairwise_cons.mp hs).2
    rw [vcTruncate_cons]
    by_cases hx : x = a
    · subst hx
      have hnone : keyLookup tl x = none :=
        keyLookup_eq_none_of_not_mem fun b hb => by
          have h2 : x < (x, b).1 := (List.pairwise_cons.mp hs).1 (x, b) hb
          simp at h2
      rw [vcGet_cons, if_pos rfl]
      split_ifs with h1
      · rw [keyLookup_cons, if_pos rfl]
      · exact keyLookup_vcTruncate_none hnone v
    · rw [vcGet_cons, if_neg hx]
      by_cases h1 : 0 < min c (vcGet v a)
      · rw [if_pos h1, keyLookup_cons, if_neg hx, ih htl]
      · rw [if_neg h1, ih htl]

theorem vcGet_vcTruncate {u : VClock} (hs : KSorted u) (v : VClock) (x : Nat) :
    vcGet (vcTruncate u v) x = min (vcGet u x) (vcGet v x) := by
  rw [show vcGet (vcTruncate u v) x = (keyLookup (vcTruncate u v) x).getD 0 from rfl,
      keyLookup_vcTruncate hs]
  split_ifs with h
  · rfl
  · simp only [Option.getD_none]
    omega

theorem nozero_vcWitness {u : VClock} (hz : NoZero u) (a : Nat) (c : Nat) :
    NoZero (vcWitness u a c) := by
  unfold vcWitness
  split_ifs with h
  · exact hz
  · intro p hp
    rcases mem_insSorted hp with h' | h'
    · rw [h']
      show c ≠ 0
      omega
    · exact hz p h'

theorem nozero_vcMerge {u : VClock} (hz : NoZero u) (v : VClock) :
    NoZero (vcMerge u v) := by
  induction v generalizing u with
  | nil => exact hz
  | cons hd tl ih => exact ih (nozero_vcWitness hz hd.1 hd.2)

theorem nozero_vcSubtract {u : VClock} (hz : NoZero u) (v : VClock) :
    NoZero (vcSubtract u v) := fun p hp => hz p (mem_vcSubtract hp)

theorem nozero_vcIntersection {u : VClock} (hz : NoZero u) (v : VClock) :
    NoZero (vcIntersection u v) := fun p hp => hz p (mem_vcIntersection hp)

theorem nozero_vcTruncate (u v : VClock) : NoZero (vcTruncate u v) := by
  intro p hp
  rcases List.mem_filterMap.mp hp with ⟨q, hq, he⟩
  split_ifs at he with hm
  · injection he with he'
    rw [← he']
    show min q.2 (vcGet v q.1) ≠ 0
    omega

theorem vcwf_tail {p : Nat × Nat} {tl : VClock} (h : VCWf (p :: tl)) :
    VCWf tl :=
  ⟨(List.pairwise_cons.mp h.1).2, fun r hr => h.2 r (List.mem_cons_of_mem _ hr)⟩

theorem vcwf_eq_of_get_eq : ∀ {u v : VClock}, VCWf u → VCWf v →
    (∀ a, vcGet u a = vcGet v a) → u = v := by
  intro u
  induction u with
  | nil =>
    intro v hu hv h
    cases v with
    | nil => rfl
    | cons q tl =>
      obtain ⟨b, d⟩ := q
      exfalso
      have h0 := h b
      rw [vcGet_nil, vcGet_cons, if_pos rfl] at h0
      exact hv.2 (b, d) (List.mem_cons_self _ _) h0.symm
  | cons p tl ih =>
    intro v hu hv h
    obtain ⟨a, c⟩ := p
    cases v with
    | nil =>
      exfalso
      have h0 := h a
      rw [vcGet_cons, if_pos rfl, vcGet_nil] at h0
      exact hu.2 (a, c) (List.mem_cons_self _ _) h0
    | cons q tl2 =>
      obtain ⟨b, d⟩ := q
      have hu' : VCWf tl := vcwf_tail hu
      have hv' : VCWf tl2 := vcwf_tail hv
      rcases Nat.lt_trichotomy a b with hab | hab | hab
      · exfalso
        have h0 := h a
        rw [vcGet_cons, if_pos rfl, vcGet_cons_zero_of_lt hv.1 hab] at h0
        exact hu.2 (a, c) (List.mem_cons_self _ _) h0
      · subst hab
        have hcd : c = d := by
          have h0 := h a
          rw [vcGet_cons, if_pos rfl, vcGet_cons, if_pos rfl] at h0
          exact h0
        subst hcd
        have htl : tl = tl2 := by
          apply ih hu' hv'
          intro x
          by_cases hx : x = a
          · subst hx
            rw [vcGet_tail_zero hu.1, vcGet_tail_zero hv.1]
          · have h0 := h x
            rw [vcGet_cons, if_neg hx, vcGet_cons, if_neg hx] at h0
            exact h0
        rw [htl]
      · exfalso
        have h0 := h b
        rw [vcGet_cons_zero_of_lt hu.1 hab, vcGet_cons, if_pos rfl] at h0
        exact hv.2 (b, d) (List.mem_cons_self _ _) h0.symm

theorem vcTruncate_idem (u v : VClock) :
    vcTruncate (vcTruncate u v) v = vcTruncate u v := by
  induction u with
  | nil => rfl
  | cons p tl ih =>
    obtain ⟨a, c⟩ := p
    rw [vcTruncate_cons]
    split_ifs with h
    · rw [vcTruncate_cons, Nat.min_assoc, Nat.min_self, if_pos h, ih]
    · exact ih

theorem vcGet_le_of_domBy {u v : VClock} (h : vcDomBy u v = true) (x : Nat) :
    vcGet u x ≤ vcGet v x := by
  cases hk : keyLookup u x with
  | none => simp [vcGet, hk]
  | some c =>
    have hmem := keyLookup_eq_some_mem hk
    have h2 := List.all_eq_true.mp h (x, c) hmem
    rw [show vcGet u x = (keyLookup u x).getD 0 from rfl, hk]
    simpa using h2

theorem vcDomBy_of_forall_get {u v : VClock} (h : ∀ p ∈ u, p.2 ≤ vcGet v p.1) :
    vcDomBy u v = true :=
  List.all_eq_true.mpr fun p hp => by simpa using h p hp

theorem vcDomBy_nil_left (v : VClock) : vcDomBy [] v = true := rfl

theorem vcLe_refl (u : VClock) : vcLe u u = true := by simp [vcLe]

theorem vcLe_nil_left {v : VClock} (hz : NoZero v) : vcLe [] v = true := by
  unfold vcLe
  by_cases h : ([] : VClock) = v
  · rw [if_pos h]
  · rw [if_neg h]
    have hdom : vcDomBy v [] = false := by
      cases v with
      | nil => exact absurd rfl h
      | cons q tl =>
        have hq := hz q (List.mem_cons_self _ _)
        apply Bool.eq_false_iff.mpr
        intro hc
        have h2 := List.all_eq_true.mp hc q (List.mem_cons_self _ _)
        simp [vcGet, keyLookup] at h2
        exact hq h2

    rw [hdom]
    simp [vcDomBy_nil_left]

/-! ### Claims C7 and C8 — VClock subtract / truncate -/

/-- C7: `VClock` truncate is the lattice meet — for any two (well-formed) vector
clocks `u` and `v`, `u.truncate(&v)` equals `v.truncate(&u)`, both equal the
clock mapping each actor `a` to `min (u.get a) (v.get a)`, and all zero-counter
entries are removed. -/
theorem c7_truncate_meet (u v : VClock) (hu : VCWf u) (hv : VCWf v) :
    vcTruncate u v = vcTruncate v u ∧
    (∀ a, vcGet (vcTruncate u v) a = min (vcGet u a) (vcGet v a)) ∧
    NoZero (vcTruncate u v) := by
  refine ⟨?_, fun a => vcGet_vcTruncate hu.1 v a, nozero_vcTruncate u v⟩
  apply vcwf_eq_of_get_eq
  · exact ⟨ksorted_vcTruncate hu.1 v, nozero_vcTruncate u v⟩
  · exact ⟨ksorted_vcTruncate hv.1 u, nozero_vcTruncate v u⟩
  · intro a
    rw [vcGet_vcTruncate hu.1, vcGet_vcTruncate hv.1]
    exact Nat.min_comm _ _

/-- Witness for C7 at the concrete clocks `{1→5, 2→3}` and `{1→2}`. -/
theorem c7_truncate_meet_witness :
    vcTruncate [(1, 5), (2, 3)] [(1, 2)] = vcTruncate [(1, 2)] [(1, 5), (2, 3)] ∧
    vcGet (vcTruncate [(1, 5), (2, 3)] [(1, 2)]) 1 =
      min (vcGet [(1, 5), (2, 3)] 1) (vcGet [(1, 2)] 1) :=
  ⟨(c7_truncate_meet [(1, 5), (2, 3)] [(1, 2)] (by decide) (by decide)).1,
   (c7_truncate_meet [(1, 5), (2, 3)] [(1, 2)] (by decide) (by decide)).2.1 1⟩

/-- C8: `subtract` removes from `self` exactly the actors whose counter in the
argument dominates theirs, leaving all other counters unchanged; concretely,
`{A→5, B→3}.subtract({A→5}) = {B→3}` and `{A→5, B→3}.subtract({A→4})` is
unchanged (actors `A = 0`, `B = 1`). -/
theorem c8_subtract_characterization (u v : VClock) (hu : VCWf u) :
    (∀ a, vcGet (vcSubtract u v) a =
        if vcGet u a ≤ vcGet v a then 0 else vcGet u a) ∧
    vcSubtract [(0, 5), (1, 3)] [(0, 5)] = [(1, 3)] ∧
    vcSubtract [(0, 5), (1, 3)] [(0, 4)] = [(0, 5), (1, 3)] := by
  refine ⟨?_, rfl, rfl⟩
  intro a
  rw [show vcGet (vcSubtract u v) a = (keyLookup (vcSubtract u v) a).getD 0 from rfl,
      keyLookup_vcSubtract hu.1,
      show vcGet u a = (keyLookup u a).getD 0 from rfl,
      show vcGet v a = (keyLookup v a).getD 0 from rfl]
  cases hku : keyLookup u a with
  | none => split_ifs <;> rfl
  | some c =>
    have hc : c ≠ 0 := hu.2 (a, c) (keyLookup_eq_some_mem hku)
    cases hkv : keyLookup v a with
    | none =>
      show (some c).getD 0 =
        if (some c).getD 0 ≤ (none : Option Nat).getD 0 then 0 else (some c).getD 0
      simp only [Option.getD_some, Option.getD_none]
      rw [if_neg (by omega)]
    | some cv =>
      show (if cv < c then some c else none).getD 0 =
        if (some c).getD 0 ≤ (some cv).getD 0 then 0 else (some c).getD 0
      simp only [Option.getD_some]
      by_cases hlt : cv < c
      · rw [if_pos hlt, if_neg (by omega)]
        rfl
      · rw [if_neg hlt, if_pos (by omega)]
        rfl

/-- Witness for C8 at the concrete clocks from the claim. -/
theorem c8_subtract_characterization_witness :
    vcGet (vcSubtract [(0, 5), (1, 3)] [(0, 5)]) 0 =
      (if vcGet [(0, 5), (1, 3)] 0 ≤ vcGet [(0, 5)] 0 then 0
       else vcGet [(0, 5), (1, 3)] 0) ∧
    vcSubtract [(0, 5), (1, 3)] [(0, 5)] = [(1, 3)] :=
  ⟨(c8_subtract_characterization [(0, 5), (1, 3)] [(0, 5)] (by decide)).1 0,
   (c8_subtract_characterization [(0, 5), (1, 3)] [(0, 5)] (by decide)).2.1⟩

/-! ### Map-level basic lemmas -/

theorem applyRm_lookup_none {V Vop : Type} (O : ValOps V Vop) {s : MapState V}
    {k : Nat} (hk : keyLookup s.entries k = none) (c : VClock) :
    applyRm O s k c = { s with deferred := rmDeferred s k c } := by
  unfold applyRm
  rw [hk]

theorem applyRm_lookup_some_empty {V Vop : Type} (O : ValOps V Vop) {s : MapState V}
    {k : Nat} {e : Entry V} (hk : keyLookup s.entries k = some e) (c : VClock)
    (he : (vcSubtract e.clock c).isEmpty = true) :
    applyRm O s k c =
      { s with deferred := rmDeferred s k c, entries := remKey s.entries k } := by
  unfold applyRm
  simp only [hk]
  rw [if_pos he]

theorem applyRm_lookup_some_nonempty {V Vop : Type} (O : ValOps V Vop) {s : MapState V}
    {k : Nat} {e : Entry V} (hk : keyLookup s.entries k = some e) (c : VClock)
    (he : (vcSubtract e.clock c).isEmpty = false) :
    applyRm O s k c =
      { s with deferred := rmDeferred s k c,
               entries := insSorted s.entries k
                 ⟨vcSubtract e.clock c, O.truncate e.val c⟩ } := by
  unfold applyRm
  simp only [hk]
  rw [if_neg (by simp [he])]

theorem applyRm_clock {V Vop : Type} (O : ValOps V Vop) (s : MapState V) (k : Nat)
    (c : VClock) : (applyRm O s k c).clock = s.clock := by
  cases hk : keyLookup s.entries k with
  | none => rw [applyRm_lookup_none O hk]
  | some e =>
    cases he : (vcSubtract e.clock c).isEmpty with
    | true => rw [applyRm_lookup_some_empty O hk c he]
    | false => rw [applyRm_lookup_some_nonempty O hk c he]

theorem applyRm_deferred {V Vop : Type} (O : ValOps V Vop) (s : MapState V) (k : Nat)
    (c : VClock) : (applyRm O s k c).deferred = rmDeferred s k c := by
  cases hk : keyLookup s.entries k with
  | none => rw [applyRm_lookup_none O hk]
  | some e =>
    cases he : (vcSubtract e.clock c).isEmpty with
    | true => rw [applyRm_lookup_some_empty O hk c he]
    | false => rw [applyRm_lookup_some_nonempty O hk c he]

theorem foldRm_clock {V Vop : Type} (O : ValOps V Vop) (ps : List (VClock × Nat))
    (t : MapState V) :
    (ps.foldl (fun acc p => applyRm O acc p.2 p.1) t).clock = t.clock := by
  induction ps generalizing t with
  | nil => rfl
  | cons hd tl ih => rw [List.foldl_cons, ih, applyRm_clock]

theorem applyDeferred_clock {V Vop : Type} (O : ValOps V Vop) (s : MapState V) :
    (applyDeferred O s).clock = s.clock := by
  unfold applyDeferred
  rw [foldRm_clock]

theorem applyDeferred_of_deferred_nil {V Vop : Type} (O : ValOps V Vop)
    {s : MapState V} (h : s.deferred = []) : applyDeferred O s = s := by
  unfold applyDeferred
  rw [h]
  show { s with deferred := [] } = s
  rw [← h]

theorem applyMap_up_stale {V Vop : Type} (O : ValOps V Vop) (s : MapState V) {d : Dot}
    (k : Nat) (vop : Vop) (h : d.counter ≤ vcGet s.clock d.actor) :
    applyMap O s (.up d k vop) = s := by
  simp only [applyMap, if_pos h]

theorem mem_keyInsertNat {l : List Nat} {x : Nat} (h : x ∈ l) (k : Nat) :
    x ∈ keyInsertNat l k := by
  induction l with
  | nil => simp at h
  | cons a r ih =>
    simp only [keyInsertNat]
    split_ifs with h1 h2
    · exact List.mem_cons_of_mem _ h
    · exact h
    · rcases List.mem_cons.mp h with h' | h'
      · exact List.mem_cons.mpr (Or.inl h')
      · exact List.mem_cons_of_mem _ (ih h')

theorem self_mem_keyInsertNat (l : List Nat) (k : Nat) : k ∈ keyInsertNat l k := by
  induction l with
  | nil => simp [keyInsertNat]
  | cons a r ih =>
    simp only [keyInsertNat]
    split_ifs with h1 h2
    · exact List.mem_cons_self _ _
    · rw [h2]
      exact List.mem_cons_self _ _
    · exact List.mem_cons_of_mem _ ih

theorem keyInsertNat_idem (l : List Nat) (k : Nat) :
    keyInsertNat (keyInsertNat l k) k = keyInsertNat l k := by
  induction l with
  | nil => simp [keyInsertNat]
  | cons a r ih =>
    simp only [keyInsertNat]
    split_ifs with h1 h2
    · simp [keyInsertNat, h1, lt_irrefl]
    · simp [keyInsertNat, h1, h2]
    · simp only [keyInsertNat, if_neg h1, if_neg h2, ih]

theorem defInsert_mem_self (d : List (VClock × List Nat)) (c : VClock) (k : Nat) :
    ∃ ks, (c, ks) ∈ defInsert d c k ∧ k ∈ ks := by
  induction d with
  | nil => exact ⟨[k], by simp [defInsert], by simp⟩
  | cons hd r ih =>
    obtain ⟨c0, ks0⟩ := hd
    simp only [defInsert]
    split_ifs with h1
    · subst h1
      exact ⟨keyInsertNat ks0 k, List.mem_cons_self _ _, self_mem_keyInsertNat ks0 k⟩
    · obtain ⟨ks, hmem, hk⟩ := ih
      exact ⟨ks, List.mem_cons_of_mem _ hmem, hk⟩

theorem defInsert_mem_preserve {d : List (VClock × List Nat)} {c2 : VClock}
    {ks2 : List Nat} (h : (c2, ks2) ∈ d) (c : VClock) (k k2 : Nat) (hk2 : k2 ∈ ks2) :
    ∃ ks, (c2, ks) ∈ defInsert d c k ∧ k2 ∈ ks := by
  induction d with
  | nil => simp at h
  | cons hd r ih =>
    obtain ⟨c0, ks0⟩ := hd
    simp only [defInsert]
    split_ifs with h1
    · rcases List.mem_cons.mp h with h' | h'
      · rw [Prod.mk.injEq] at h'
        obtain ⟨hc, hks⟩ := h'
        subst hc
        subst hks
        exact ⟨keyInsertNat ks2 k, List.mem_cons_self _ _, mem_keyInsertNat hk2 k⟩
      · exact ⟨ks2, List.mem_cons_of_mem _ h', hk2⟩
    · rcases List.mem_cons.mp h with h' | h'
      · exact ⟨ks2, by rw [h']; exact List.mem_cons_self _ _, hk2⟩
      · obtain ⟨ks, hmem, hkk⟩ := ih h'
        exact ⟨ks, List.mem_cons_of_mem _ hmem, hkk⟩

theorem mem_defInsert_clock {d : List (VClock × List Nat)} {c : VClock} {k : Nat}
    {p : VClock × List Nat} (h : p ∈ defInsert d c k) :
    (∃ ks, (p.1, ks) ∈ d) ∨ p.1 = c := by
  induction d with
  | nil =>
    simp only [defInsert, List.mem_singleton] at h
    rw [h]
    exact Or.inr rfl
  | cons hd r ih =>
    obtain ⟨c0, ks0⟩ := hd
    simp only [defInsert] at h
    split_ifs at h with h1
    · rcases List.mem_cons.mp h with h' | h'
      · rw [h']
        exact Or.inl ⟨ks0, List.mem_cons_self _ _⟩
      · exact Or.inl ⟨p.2, by
          rw [show ((p.1, p.2) : VClock × List Nat) = p from rfl]
          exact List.mem_cons_of_mem _ h'⟩
    · rcases List.mem_cons.mp h with h' | h'
      · rw [h']
        exact Or.inl ⟨ks0, List.mem_cons_self _ _⟩
      · rcases ih h' with h'' | h''
        · obtain ⟨ks, hks⟩ := h''
          exact Or.inl ⟨ks, List.mem_cons_of_mem _ hks⟩
        · exact Or.inr h''

theorem defInsert_idem (d : List (VClock × List Nat)) (c : VClock) (k : Nat) :
    defInsert (defInsert d c k) c k = defInsert d c k := by
  induction d with
  | nil => simp [defInsert, keyInsertNat]
  | cons hd r ih =>
    obtain ⟨c0, ks0⟩ := hd
    simp only [defInsert]
    split_ifs with h1
    · simp [defInsert, h1, keyInsertNat_idem]
    · simp [defInsert, h1, ih]

/-! ### Claim C5 — op idempotence -/

/-- C5: applying the same op to a Map replica twice in succession leaves a state
identical to applying it once — in particular a re-applied `Up` whose dot is
already dominated changes nothing — assuming the nested `truncate` is idempotent
(the capability-set requirement the claim names). -/
theorem c5_op_idempotent {V Vop : Type} (O : ValOps V Vop)
    (hT : ∀ v c, O.truncate (O.truncate v c) c = O.truncate v c)
    (s : MapState V) (hs : KSorted s.entries) (op : MapOp V Vop) :
    applyMap O (applyMap O s op) op = applyMap O s op := by
  cases op with
  | nop => rfl
  | up d k vop =>
    by_cases hg : d.counter ≤ vcGet s.clock d.actor
    · rw [applyMap_up_stale O s k vop hg, applyMap_up_stale O s k vop hg]
    · apply applyMap_up_stale
      have hclock : (applyMap O s (.up d k vop)).clock =
          vcWitness s.clock d.actor d.counter := by
        simp only [applyMap, if_neg hg]
        exact applyDeferred_clock O _
      rw [hclock, vcGet_vcWitness, if_pos rfl]
      exact le_max_right _ _
  | rm c k =>
    show applyRm O (applyRm O s k c) k c = applyRm O s k c
    have hdef : rmDeferred (applyRm O s k c) k c = (applyRm O s k c).deferred := by
      unfold rmDeferred
      rw [applyRm_clock, applyRm_deferred]
      unfold rmDeferred
      split_ifs with h
      · rfl
      · exact defInsert_idem _ _ _
    cases hk : keyLookup s.entries k with
    | none =>
      have h2 : keyLookup (applyRm O s k c).entries k = none := by
        rw [applyRm_lookup_none O hk]
        exact hk
      rw [applyRm_lookup_none O h2, hdef]
    | some e =>
      cases he : (vcSubtract e.clock c).isEmpty with
      | true =>
        have h2 : keyLookup (applyRm O s k c).entries k = none := by
          rw [applyRm_lookup_some_empty O hk c he]
          exact keyLookup_remKey_self (nodupkeys_of_ksorted hs) k
        rw [applyRm_lookup_none O h2, hdef]
      | false =>
        have hent : (applyRm O s k c).entries =
            insSorted s.entries k ⟨vcSubtract e.clock c, O.truncate e.val c⟩ := by
          rw [applyRm_lookup_some_nonempty O hk c he]
        have h2 : keyLookup (applyRm O s k c).entries k =
            some ⟨vcSubtract e.clock c, O.truncate e.val c⟩ := by
          rw [hent, keyLookup_insSorted]
          simp
        have he2 : (vcSubtract
            ((⟨vcSubtract e.clock c, O.truncate e.val c⟩ : Entry V).clock) c).isEmpty
            = false := by
          show (vcSubtract (vcSubtract e.clock c) c).isEmpty = false
          rw [vcSubtract_idem]
          exact he
        rw [applyRm_lookup_some_nonempty O h2 c he2, hdef]
        simp only [vcSubtract_idem, hT, hent, insSorted_insSorted_same]
        rw [← hent]

/-- Witness for C5: re-applying an `Up` op (value type `VClock`) to a replica
that already applied it changes nothing. -/
theorem c5_op_idempotent_witness :
    applyMap vclockOps (applyMap vclockOps c1mapL (.up ⟨2, 1⟩ 3 ⟨2, 1⟩))
        (.up ⟨2, 1⟩ 3 ⟨2, 1⟩) =
      applyMap vclockOps c1mapL (.up ⟨2, 1⟩ 3 ⟨2, 1⟩) :=
  c5_op_idempotent vclockOps (fun v c => vcTruncate_idem v c) c1mapL (by decide)
    (.up ⟨2, 1⟩ 3 ⟨2, 1⟩)

/-! ### Claim C10 — removing with the empty clock is a no-op -/

/-- C10: applying an `Op::Rm` whose clock is the empty `VClock` — exactly what
`rm` produces from an `RmCtx` derived from `get` of an absent key — leaves the
Map unchanged: the empty clock is ≤ the map clock so no deferred record is
added, and any existing entry is reinserted with clock and value unchanged,
given that the nested truncate by the empty clock fixes the stored values (as
holds for nested Maps, whose truncate subtracts per actor rather than taking a
meet). -/
theorem c10_rm_empty_clock {V Vop : Type} (O : ValOps V Vop) (s : MapState V)
    (k : Nat) (hz : NoZero s.clock) (hs : KSorted s.entries)
    (hne : ∀ p ∈ s.entries, p.2.clock ≠ [])
    (hT : ∀ p ∈ s.entries, O.truncate p.2.val [] = p.2.val) :
    applyMap O s (.rm [] k) = s ∧
    (keyLookup s.entries k = none → (mapGet s k).rmClock = []) := by
  constructor
  · show applyRm O s k [] = s
    have hdef : rmDeferred s k [] = s.deferred := by
      unfold rmDeferred
      rw [if_pos (vcLe_nil_left hz)]
    cases hk : keyLookup s.entries k with
    | none =>
      rw [applyRm_lookup_none O hk, hdef]
    | some e =>
      have hmem : (k, e) ∈ s.entries := keyLookup_eq_some_mem hk
      have hsub : vcSubtract e.clock [] = e.clock := vcSubtract_nil e.clock
      have hemp : (vcSubtract e.clock []).isEmpty = false := by
        rw [hsub]
        cases hcl : e.clock with
        | nil => exact absurd hcl (hne (k, e) hmem)
        | cons q r => rfl
      rw [applyRm_lookup_some_nonempty O hk [] hemp, hdef, hsub, hT (k, e) hmem]
      rw [show (⟨e.clock, e.val⟩ : Entry V) = e from rfl, insSorted_lookup_self hs hk]
  · intro hk
    simp [mapGet, hk]

/-- Witness for C10 with the modelled `MVReg` as nested value type. -/
theorem c10_rm_empty_clock_witness :
    applyMap mvregOps
        (⟨[(1, 1)], [(5, ⟨[(1, 1)], [([(1, 1)], 7)]⟩)], []⟩ : MapState MVReg)
        (.rm [] 9) =
      ⟨[(1, 1)], [(5, ⟨[(1, 1)], [([(1, 1)], 7)]⟩)], []⟩ :=
  (c10_rm_empty_clock mvregOps _ 9 (by decide) (by decide) (by decide) (by decide)).1

/-! ### Claim C9 — totality of merge (the unwrap never panics) -/

theorem mergeLoopChecked_eq {V Vop : Type} (O : ValOps V Vop)
    (Rorig : List (Nat × Entry V)) (sc oc : VClock) :
    ∀ (les rem : List (Nat × Entry V)),
      (les.map Prod.fst).Nodup →
      (∀ k ∈ les.map Prod.fst, keyLookup rem k = keyLookup Rorig k) →
      mergeLoopChecked O Rorig sc oc les rem =
        some (mergeLoop O Rorig sc oc les rem) := by
  intro les
  induction les with
  | nil =>
    intro rem h1 h2
    rfl
  | cons hd rest ih =>
    intro rem h1 h2
    obtain ⟨k, eL⟩ := hd
    have h1' : (k :: rest.map Prod.fst).Nodup := by simpa using h1
    have hnd := List.nodup_cons.mp h1'
    cases hR : keyLookup Rorig k with
    | none =>
      have hrec := ih rem hnd.2 fun k' hk' => h2 k' (by simp [hk'])
      simp only [mergeLoopChecked, mergeLoop, hR, hrec]
    | some eR =>
      have hrem : keyLookup rem k = some eR := by
        rw [h2 k (by simp)]
        exact hR
      have hrec := ih (remKey rem k) hnd.2 fun k' hk' => by
        have hne : k' ≠ k := by
          intro hc
          rw [hc] at hk'
          exact hnd.1 hk'
        rw [keyLookup_remKey_ne rem k k' hne]
        exact h2 k' (by simp [hk'])
      simp only [mergeLoopChecked, mergeLoop, hR, hrem, hrec]

/-- C9: every core operation of the embedding is a total function, and in
particular the `other_remaining.remove(&key).unwrap()` inside `Map::merge`
never observes `None` when the key comes from the both-present branch: on any
pair of maps whose left entry list has no duplicate keys (the `BTreeMap`
invariant), the checked merge — in which that unwrap is modelled as a fallible
step — succeeds and returns exactly the total merge. -/
theorem c9_merge_unwrap_total {V Vop : Type} (O : ValOps V Vop) (L R : MapState V)
    (h : (L.entries.map Prod.fst).Nodup) :
    mergeMapChecked O L R = some (mergeMap O L R) := by
  unfold mergeMapChecked mergeMap
  rw [mergeLoopChecked_eq O R.entries L.clock R.clock L.entries R.entries h
      (fun k _ => rfl)]

/-- Witness for C9 at the C1 replicas. -/
theorem c9_merge_unwrap_total_witness :
    mergeMapChecked vclockOps c1mapL c1mapR =
      some (mergeMap vclockOps c1mapL c1mapR) :=
  c9_merge_unwrap_total vclockOps c1mapL c1mapR (by decide)

/-! ### Claim C3 — causal delivery via deferred -/

theorem remKey_sublist {β : Type _} (l : List (Nat × β)) (k : Nat) :
    List.Sublist (remKey l k) l := by
  induction l with
  | nil => simp [remKey]
  | cons hd tl ih =>
    obtain ⟨a, b⟩ := hd
    simp only [remKey]
    split_ifs with h1
    · exact List.Sublist.cons _ (List.Sublist.refl tl)
    · exact List.Sublist.cons₂ _ ih

theorem ksorted_remKey {β : Type _} {l : List (Nat × β)} (h : KSorted l) (k : Nat) :
    KSorted (remKey l k) := List.Pairwise.sublist (remKey_sublist l k) h

theorem ksorted_applyRm {V Vop : Type} (O : ValOps V Vop) {t : MapState V}
    (ht : KSorted t.entries) (k : Nat) (c : VClock) :
    KSorted (applyRm O t k c).entries := by
  cases hk : keyLookup t.entries k with
  | none =>
    rw [applyRm_lookup_none O hk]
    exact ht
  | some e =>
    cases he : (vcSubtract e.clock c).isEmpty with
    | true =>
      rw [applyRm_lookup_some_empty O hk c he]
      exact ksorted_remKey ht k
    | false =>
      rw [applyRm_lookup_some_nonempty O hk c he]
      exact ksorted_insSorted ht k _

theorem keyLookup_applyRm_self_none {V Vop : Type} (O : ValOps V Vop)
    {t : MapState V} {k : Nat} (hk : keyLookup t.entries k = none) (c : VClock) :
    keyLookup (applyRm O t k c).entries k = none := by
  rw [applyRm_lookup_none O hk]
  exact hk

theorem keyLookup_applyRm_self_some {V Vop : Type} (O : ValOps V Vop)
    {t : MapState V} (ht : KSorted t.entries) {k : Nat} {e : Entry V}
    (hk : keyLookup t.entries k = some e) (c : VClock) :
    keyLookup (applyRm O t k c).entries k =
      if (vcSubtract e.clock c).isEmpty then none
      else some ⟨vcSubtract e.clock c, O.truncate e.val c⟩ := by
  cases he : (vcSubtract e.clock c).isEmpty with
  | true =>
    rw [applyRm_lookup_some_empty O hk c he]
    show keyLookup (remKey t.entries k) k = none
    exact keyLookup_remKey_self (nodupkeys_of_ksorted ht) k
  | false =>
    rw [applyRm_lookup_some_nonempty O hk c he]
    show keyLookup (insSorted t.entries k
        ⟨vcSubtract e.clock c, O.truncate e.val c⟩) k =
      some ⟨vcSubtract e.clock c, O.truncate e.val c⟩
    rw [keyLookup_insSorted, if_pos rfl]

theorem keyLookup_applyRm_other {V Vop : Type} (O : ValOps V Vop) (t : MapState V)
    {k k' : Nat} (hne : k' ≠ k) (c : VClock) :
    keyLookup (applyRm O t k c).entries k' = keyLookup t.entries k' := by
  cases hk : keyLookup t.entries k with
  | none => rw [applyRm_lookup_none O hk]
  | some e =>
    cases he : (vcSubtract e.clock c).isEmpty with
    | true =>
      rw [applyRm_lookup_some_empty O hk c he]
      exact keyLookup_remKey_ne t.entries k k' hne
    | false =>
      rw [applyRm_lookup_some_nonempty O hk c he]
      show keyLookup (insSorted t.entries k _) k' = _
      rw [keyLookup_insSorted, if_neg hne]

theorem vcSubtract_fix_of_subset {u w c : VClock} (h : vcSubtract u c = u)
    (hw : ∀ p ∈ w, p ∈ u) : vcSubtract w c = w := by
  apply List.filter_eq_self.mpr
  intro p hp
  exact List.filter_eq_self.mp h p (hw p hp)

theorem removalApplied_applyRm_self {V Vop : Type} (O : ValOps V Vop)
    {t : MapState V} (ht : KSorted t.entries) (k : Nat) (c : VClock) :
    removalApplied (applyRm O t k c) k c := by
  intro e' he'
  cases hk : keyLookup t.entries k with
  | none =>
    rw [keyLookup_applyRm_self_none O hk c] at he'
    cases he'
  | some e =>
    rw [keyLookup_applyRm_self_some O ht hk c] at he'
    split_ifs at he' with hemp
    injection he' with he2
    rw [← he2]
    show vcSubtract (vcSubtract e.clock c) c = vcSubtract e.clock c
    exact vcSubtract_idem e.clock c

theorem removalApplied_applyRm_preserve {V Vop : Type} (O : ValOps V Vop)
    {t : MapState V} {k : Nat} {c : VClock} (h : removalApplied t k c)
    (ht : KSorted t.entries) (k' : Nat) (c' : VClock) :
    removalApplied (applyRm O t k' c') k c := by
  by_cases hkk : k = k'
  · subst hkk
    intro e' he'
    cases hk : keyLookup t.entries k with
    | none =>
      rw [keyLookup_applyRm_self_none O hk c'] at he'
      cases he'
    | some e =>
      rw [keyLookup_applyRm_self_some O ht hk c'] at he'
      split_ifs at he' with hemp
      injection he' with he2
      rw [← he2]
      show vcSubtract (vcSubtract e.clock c') c = vcSubtract e.clock c'
      exact vcSubtract_fix_of_subset (h e hk) fun p hp => mem_vcSubtract hp
  · intro e' he'
    rw [keyLookup_applyRm_other O t hkk c'] at he'
    exact h e' he'

theorem foldRm_ksorted {V Vop : Type} (O : ValOps V Vop) (ps : List (VClock × Nat)) :
    ∀ {t : MapState V}, KSorted t.entries →
      KSorted ((ps.foldl (fun acc p => applyRm O acc p.2 p.1) t).entries) := by
  induction ps with
  | nil =>
    intro t ht
    exact ht
  | cons hd tl ih =>
    intro t ht
    simp only [List.foldl_cons]
    exact ih (ksorted_applyRm O ht hd.2 hd.1)

theorem foldRm_removalApplied {V Vop : Type} (O : ValOps V Vop)
    (ps : List (VClock × Nat)) :
    ∀ {t : MapState V}, KSorted t.entries → ∀ {c : VClock} {k : Nat},
      ((c, k) ∈ ps ∨ removalApplied t k c) →
      removalApplied (ps.foldl (fun acc p => applyRm O acc p.2 p.1) t) k c := by
  induction ps with
  | nil =>
    intro t ht c k hmem
    rcases hmem with hmem | hra
    · simp at hmem
    · exact hra
  | cons hd tl ih =>
    intro t ht c k hmem
    simp only [List.foldl_cons]
    rcases hmem with hmem | hra
    · rcases List.mem_cons.mp hmem with h' | h'
      · subst h'
        exact ih (ksorted_applyRm O ht _ _)
          (Or.inr (removalApplied_applyRm_self O ht _ _))
      · exact ih (ksorted_applyRm O ht _ _) (Or.inl h')
    · exact ih (ksorted_applyRm O ht _ _)
        (Or.inr (removalApplied_applyRm_preserve O hra ht _ _))

theorem applyRm_deferred_guard {V Vop : Type} (O : ValOps V Vop) {t : MapState V}
    (hd : ∀ p ∈ t.deferred, vcLe p.1 t.clock = false) (k : Nat) (c : VClock) :
    ∀ p ∈ (applyRm O t k c).deferred, vcLe p.1 (applyRm O t k c).clock = false := by
  intro p hp
  rw [applyRm_clock]
  rw [applyRm_deferred] at hp
  unfold rmDeferred at hp
  split_ifs at hp with hle
  · exact hd p hp
  · rcases mem_defInsert_clock hp with ⟨ks, hks⟩ | hpc
    · exact hd (p.1, ks) hks
    · rw [hpc]
      exact Bool.eq_false_iff.mpr hle

theorem foldRm_deferred_guard {V Vop : Type} (O : ValOps V Vop)
    (ps : List (VClock × Nat)) {t : MapState V}
    (h : ∀ p ∈ t.deferred, vcLe p.1 t.clock = false) :
    ∀ p ∈ (ps.foldl (fun acc q => applyRm O acc q.2 q.1) t).deferred,
      vcLe p.1 (ps.foldl (fun acc q => applyRm O acc q.2 q.1) t).clock = false := by
  induction ps generalizing t with
  | nil => exact h
  | cons hd tl ih => exact ih (applyRm_deferred_guard O h hd.2 hd.1)

theorem applyDeferred_deferred_guard {V Vop : Type} (O : ValOps V Vop)
    (s : MapState V) :
    ∀ p ∈ (applyDeferred O s).deferred, vcLe p.1 s.clock = false := by
  intro p hp
  have h2 := foldRm_deferred_guard O (defPairs s.deferred)
    (t := { s with deferred := [] }) (by intro q hq; simp at hq) p hp
  rwa [foldRm_clock] at h2

theorem mem_defPairs {d : List (VClock × List Nat)} {c : VClock} {ks : List Nat}
    (h : (c, ks) ∈ d) {k : Nat} (hk : k ∈ ks) : (c, k) ∈ defPairs d := by
  induction d with
  | nil => simp at h
  | cons hd r ih =>
    obtain ⟨c0, ks0⟩ := hd
    simp only [defPairs]
    rcases List.mem_cons.mp h with h' | h'
    · rw [Prod.mk.injEq] at h'
      obtain ⟨h1, h2⟩ := h'
      subst h1
      subst h2
      exact List.mem_append.mpr (Or.inl (List.mem_map.mpr ⟨k, hk, rfl⟩))
    · exact List.mem_append.mpr (Or.inr (ih h'))

theorem applyDeferred_fires {V Vop : Type} (O : ValOps V Vop) {s : MapState V}
    (hs : KSorted s.entries) {c : VClock} {k : Nat}
    (hmem : ∃ ks, (c, ks) ∈ s.deferred ∧ k ∈ ks) :
    removalApplied (applyDeferred O s) k c := by
  obtain ⟨ks, hks, hk⟩ := hmem
  exact foldRm_removalApplied O (defPairs s.deferred)
    (t := { s with deferred := [] }) hs (Or.inl (mem_defPairs hks hk))

theorem applyMap_up_fresh {V Vop : Type} (O : ValOps V Vop) (s : MapState V)
    {d : Dot} (k : Nat) (vop : Vop) (h : ¬ d.counter ≤ vcGet s.clock d.actor) :
    applyMap O s (.up d k vop) = applyDeferred O
      { s with
        entries := insSorted s.entries k
          ⟨vcWitness ((keyLookup s.entries k).getD ⟨[], O.default⟩).clock d.actor d.counter,
           O.applyOp ((keyLookup s.entries k).getD ⟨[], O.default⟩).val vop⟩,
        clock := vcWitness s.clock d.actor d.counter } := by
  simp only [applyMap, if_neg h]

theorem foldDefInsert_mem_preserve (ps : List (VClock × Nat)) (Lc : VClock) :
    ∀ {d : List (VClock × List Nat)} {c : VClock} {ks : List Nat} {k : Nat},
      (c, ks) ∈ d → k ∈ ks →
      ∃ ks2, (c, ks2) ∈ ps.foldl
          (fun d p => if vcLe p.1 Lc then d else defInsert d p.1 p.2) d ∧
        k ∈ ks2 := by
  induction ps with
  | nil =>
    intro d c ks k h hk
    exact ⟨ks, h, hk⟩
  | cons hd tl ih =>
    intro d c ks k h hk
    simp only [List.foldl_cons]
    by_cases hle : vcLe hd.1 Lc = true
    · rw [if_pos hle]
      exact ih h hk
    · rw [if_neg hle]
      obtain ⟨ks', hm, hk'⟩ := defInsert_mem_preserve h hd.1 hd.2 k hk
      exact ih hm hk'

/-- The zeta-reduced shape of `mergeMap`, for reasoning about its phases. -/
theorem mergeMap_eq {V Vop : Type} (O : ValOps V Vop) (L R : MapState V) :
    mergeMap O L R = applyDeferred O
      { clock := vcMerge L.clock R.clock,
        entries := (mergeLoop O R.entries L.clock R.clock L.entries R.entries).2.foldl
          (fun ks p =>
            match mergeLeftOnly O L.clock p.2 with
            | none => ks
            | some e => insSorted ks p.1 e)
          (mergeLoop O R.entries L.clock R.clock L.entries R.entries).1,
        deferred := (defPairs R.deferred).foldl
          (fun d p => if vcLe p.1 L.clock then d else defInsert d p.1 p.2)
          L.deferred } := rfl

theorem ksorted_mergeLoop_keep {V Vop : Type} (O : ValOps V Vop)
    (Rorig : List (Nat × Entry V)) (sc oc : VClock) :
    ∀ (les rem : List (Nat × Entry V)),
      KSorted (mergeLoop O Rorig sc oc les rem).1 := by
  intro les
  induction les with
  | nil =>
    intro rem
    simp [mergeLoop, KSorted]
  | cons hd rest ih =>
    intro rem
    obtain ⟨k, eL⟩ := hd
    cases hR : keyLookup Rorig k with
    | none =>
      simp only [mergeLoop, hR]
      cases hml : mergeLeftOnly O oc eL with
      | none => exact ih rem
      | some e => exact ksorted_insSorted (ih rem) k e
    | some eR =>
      simp only [mergeLoop, hR]
      cases hml : mergeBoth O sc oc eL eR with
      | none => exact ih (remKey rem k)
      | some e => exact ksorted_insSorted (ih (remKey rem k)) k e

theorem ksorted_keepFold {V Vop : Type} (O : ValOps V Vop) (Lc : VClock)
    (ps : List (Nat × Entry V)) :
    ∀ {init : List (Nat × Entry V)}, KSorted init →
      KSorted (ps.foldl (fun ks p =>
        match mergeLeftOnly O Lc p.2 with
        | none => ks
        | some e => insSorted ks p.1 e) init) := by
  induction ps with
  | nil =>
    intro init h
    exact h
  | cons hd tl ih =>
    intro init h
    simp only [List.foldl_cons]
    cases hml : mergeLeftOnly O Lc hd.2 with
    | none => exact ih h
    | some e => exact ih (ksorted_insSorted h hd.1 e)

/-- C3: causal delivery via `deferred`.  (i) Applying an `Op::Rm` whose clock is
not ≤ the map clock records the key under that clock in `deferred`.  (ii) After
an `Up` apply that raises the clock to dominate a stored clock, the remove has
taken effect on the entry (subtracting the stored clock again changes nothing)
and the record is no longer present in `deferred`.  (iii) The same holds for a
merge that raises the clock: the deferred drain runs after the final clock
merge, so removes enabled by the merged clock fire and their records vanish. -/
theorem c3_deferred_delivery {V Vop : Type} (O : ValOps V Vop) :
    (∀ (s : MapState V) (c : VClock) (k : Nat),
        vcLe c s.clock = false →
        ∃ ks, (c, ks) ∈ (applyMap O s (.rm c k)).deferred ∧ k ∈ ks) ∧
    (∀ (s : MapState V), KSorted s.entries →
      ∀ (c : VClock) (ks : List Nat) (k : Nat) (d : Dot) (key : Nat) (vop : Vop),
        (c, ks) ∈ s.deferred → k ∈ ks → vcLe c s.clock = false →
        vcLe c (applyMap O s (.up d key vop)).clock = true →
        removalApplied (applyMap O s (.up d key vop)) k c ∧
        ∀ ks2, (c, ks2) ∈ (applyMap O s (.up d key vop)).deferred → k ∉ ks2) ∧
    (∀ (L R : MapState V) (c : VClock) (ks : List Nat) (k : Nat),
        (c, ks) ∈ L.deferred → k ∈ ks →
        vcLe c (mergeMap O L R).clock = true →
        removalApplied (mergeMap O L R) k c ∧
        ∀ ks2, (c, ks2) ∈ (mergeMap O L R).deferred → k ∉ ks2) := by
  refine ⟨?_, ?_, ?_⟩
  · intro s c k hle
    show ∃ ks, (c, ks) ∈ (applyRm O s k c).deferred ∧ k ∈ ks
    rw [applyRm_deferred]
    unfold rmDeferred
    rw [if_neg (by simp [hle])]
    exact defInsert_mem_self s.deferred c k
  · intro s hs c ks k d key vop hmem hk hbefore hafter
    by_cases hg : d.counter ≤ vcGet s.clock d.actor
    · rw [applyMap_up_stale O s key vop hg] at hafter
      rw [hbefore] at hafter
      cases hafter
    · rw [applyMap_up_fresh O s key vop hg] at hafter ⊢
      constructor
      · exact applyDeferred_fires O (ksorted_insSorted hs key _) ⟨ks, hmem, hk⟩
      · intro ks2 hks2 hkks2
        have hguard := applyDeferred_deferred_guard O _ (c, ks2) hks2
        rw [applyDeferred_clock] at hafter
        simp only [] at hguard
        rw [hafter] at hguard
        cases hguard
  · intro L R c ks k hmem hk hafter
    rw [mergeMap_eq O L R] at hafter ⊢
    have hkeep : KSorted ((mergeLoop O R.entries L.clock R.clock L.entries
        R.entries).2.foldl
          (fun ks p =>
            match mergeLeftOnly O L.clock p.2 with
            | none => ks
            | some e => insSorted ks p.1 e)
          (mergeLoop O R.entries L.clock R.clock L.entries R.entries).1) :=
      ksorted_keepFold O L.clock _ (ksorted_mergeLoop_keep O R.entries L.clock
        R.clock L.entries R.entries)
    constructor
    · refine applyDeferred_fires O hkeep ?_
      exact foldDefInsert_mem_preserve (defPairs R.deferred) L.clock hmem hk
    · intro ks2 hks2 hkks2
      have hguard := applyDeferred_deferred_guard O _ (c, ks2) hks2
      rw [applyDeferred_clock] at hafter
      simp only [] at hguard
      rw [hafter] at hguard
      cases hguard

/-- Witness for C3 with value type `VClock`: a deferred remove is recorded on a
fresh map, and it fires after an `Up` (or a merge) raises the clock. -/
theorem c3_deferred_delivery_witness :
    (∃ ks, ([(1, 1)], ks) ∈
        (applyMap vclockOps (mapNew VClock) (.rm [(1, 1)] 5)).deferred ∧ 5 ∈ ks) ∧
    (removalApplied (applyMap vclockOps c1mapR (.up ⟨1, 1⟩ 3 ⟨1, 1⟩)) 0 [(1, 1)] ∧
      ∀ ks2, ([(1, 1)], ks2) ∈
          (applyMap vclockOps c1mapR (.up ⟨1, 1⟩ 3 ⟨1, 1⟩)).deferred → 0 ∉ ks2) ∧
    (removalApplied (mergeMap vclockOps c1mapR c1mapL) 0 [(1, 1)] ∧
      ∀ ks2, ([(1, 1)], ks2) ∈ (mergeMap vclockOps c1mapR c1mapL).deferred →
        0 ∉ ks2) :=
  ⟨(c3_deferred_delivery vclockOps).1 (mapNew VClock) [(1, 1)] 5 (by decide),
   (c3_deferred_delivery vclockOps).2.1 c1mapR (by decide) [(1, 1)] [0] 0
     ⟨1, 1⟩ 3 ⟨1, 1⟩ (by decide) (by decide) (by decide) (by decide),
   (c3_deferred_delivery vclockOps).2.2 c1mapR c1mapL [(1, 1)] [0] 0
     (by decide) (by decide) (by decide)⟩

/-! ### Claim C4 — clock dominance invariant -/

theorem vcDomBy_of_mem_subset {u v w : VClock} (h : vcDomBy u w = true)
    (hsub : ∀ p ∈ v, p ∈ u) : vcDomBy v w = true := by
  apply List.all_eq_true.mpr
  intro p hp
  exact List.all_eq_true.mp h p (hsub p hp)

theorem vcDomBy_mono_right {u v w : VClock} (h : vcDomBy u v = true)
    (hmono : ∀ x, vcGet v x ≤ vcGet w x) : vcDomBy u w = true := by
  apply List.all_eq_true.mpr
  intro p hp
  have h2 := List.all_eq_true.mp h p hp
  simp only [decide_eq_true_eq] at h2 ⊢
  exact le_trans h2 (hmono p.1)

theorem vcGet_le_vcWitness (u : VClock) (a n x : Nat) :
    vcGet u x ≤ vcGet (vcWitness u a n) x := by
  rw [vcGet_vcWitness]
  split_ifs with h
  · rw [h]
    exact le_max_left _ _
  · exact le_refl _

theorem mem_vcWitness {u : VClock} {a n : Nat} {p : Nat × Nat}
    (h : p ∈ vcWitness u a n) : p = (a, n) ∨ p ∈ u := by
  unfold vcWitness at h
  split_ifs at h
  · exact Or.inr h
  · exact mem_insSorted h

theorem vcGet_filter_le {u : VClock} (hs : KSorted u) (pr : Nat × Nat → Bool)
    (x : Nat) : vcGet (u.filter pr) x ≤ vcGet u x := by
  cases hk : keyLookup (u.filter pr) x with
  | none => simp [vcGet, hk]
  | some c =>
    have hmem := keyLookup_eq_some_mem hk
    have hmemu := (List.mem_filter.mp hmem).1
    have h2 : keyLookup u x = some c := keyLookup_ksorted_of_mem hs hmemu
    simp [vcGet, hk, h2]

theorem vcGet_vcSubtract_le' {u : VClock} (hs : KSorted u) (v : VClock) (x : Nat) :
    vcGet (vcSubtract u v) x ≤ vcGet u x := vcGet_filter_le hs _ x

theorem vcGet_vcIntersection_le {u : VClock} (hs : KSorted u) (v : VClock) (x : Nat) :
    vcGet (vcIntersection u v) x ≤ vcGet u x := vcGet_filter_le hs _ x

theorem mergeLeftOnly_entry_inv {V Vop : Type} {O : ValOps V Vop} {oc : VClock}
    {e e' : Entry V} (h : mergeLeftOnly O oc e = some e') (hks : KSorted e.clock) :
    KSorted e'.clock ∧ ∀ p ∈ e'.clock, p ∈ e.clock := by
  simp only [mergeLeftOnly] at h
  split_ifs at h with hemp
  injection h with h2
  rw [← h2]
  exact ⟨ksorted_vcSubtract hks oc, fun p hp => mem_vcSubtract hp⟩

theorem mergeBoth_entry_inv {V Vop : Type} {O : ValOps V Vop} {sc oc : VClock}
    {e eo e' : Entry V} (h : mergeBoth O sc oc e eo = some e')
    (hL : KSorted e.clock) (hR : KSorted eo.clock) :
    KSorted e'.clock ∧
    ∀ x, vcGet e'.clock x ≤ max (vcGet e.clock x) (vcGet eo.clock x) := by
  simp only [mergeBoth] at h
  split_ifs at h with hemp
  injection h with h2
  have hksC : KSorted (vcIntersection e.clock eo.clock) :=
    ksorted_vcIntersection hL eo.clock
  have hksA : KSorted (vcSubtract (vcSubtract e.clock
      (vcIntersection e.clock eo.clock)) oc) :=
    ksorted_vcSubtract (ksorted_vcSubtract hL _) oc
  have hksB : KSorted (vcSubtract (vcSubtract eo.clock
      (vcIntersection e.clock eo.clock)) sc) :=
    ksorted_vcSubtract (ksorted_vcSubtract hR _) sc
  constructor
  · rw [← h2]
    exact ksorted_vcMerge (ksorted_vcMerge hksC _) _
  · intro x
    rw [← h2]
    rw [vcGet_vcMerge hksB, vcGet_vcMerge hksA]
    have hc : vcGet (vcIntersection e.clock eo.clock) x ≤ vcGet e.clock x :=
      vcGet_vcIntersection_le hL eo.clock x
    have ha : vcGet (vcSubtract (vcSubtract e.clock
        (vcIntersection e.clock eo.clock)) oc) x ≤ vcGet e.clock x :=
      le_trans (vcGet_vcSubtract_le' (ksorted_vcSubtract hL _) oc x)
        (vcGet_vcSubtract_le' hL _ x)
    have hb : vcGet (vcSubtract (vcSubtract eo.clock
        (vcIntersection e.clock eo.clock)) sc) x ≤ vcGet eo.clock x :=
      le_trans (vcGet_vcSubtract_le' (ksorted_vcSubtract hR _) sc x)
        (vcGet_vcSubtract_le' hR _ x)
    refine max_le (max_le ?_ ?_) ?_
    · exact le_trans hc (le_max_left _ _)
    · exact le_trans ha (le_max_left _ _)
    · exact le_trans hb (le_max_right _ _)

theorem mem_mergeLoop_keep {V Vop : Type} (O : ValOps V Vop)
    (Rorig : List (Nat × Entry V)) (sc oc : VClock) :
    ∀ (les rem : List (Nat × Entry V)) (p : Nat × Entry V),
      p ∈ (mergeLoop O Rorig sc oc les rem).1 →
      ∃ eL, (p.1, eL) ∈ les ∧
        (mergeLeftOnly O oc eL = some p.2 ∨
         ∃ eR, keyLookup Rorig p.1 = some eR ∧ mergeBoth O sc oc eL eR = some p.2) := by
  intro les
  induction les with
  | nil =>
    intro rem p hp
    simp [mergeLoop] at hp
  | cons hd rest ih =>
    intro rem p hp
    obtain ⟨k, eL⟩ := hd
    cases hR : keyLookup Rorig k with
    | none =>
      cases hml : mergeLeftOnly O oc eL with
      | none =>
        simp only [mergeLoop, hR, hml] at hp
        obtain ⟨eL', hmem, hcase⟩ := ih rem p hp
        exact ⟨eL', List.mem_cons_of_mem _ hmem, hcase⟩
      | some e =>
        simp only [mergeLoop, hR, hml] at hp
        rcases mem_insSorted hp with h' | h'
        · refine ⟨eL, ?_, Or.inl ?_⟩
          · rw [h']
            exact List.mem_cons_self _ _
          · rw [h']
            exact hml
        · obtain ⟨eL', hmem, hcase⟩ := ih rem p h'
          exact ⟨eL', List.mem_cons_of_mem _ hmem, hcase⟩
    | some eR =>
      cases hml : mergeBoth O sc oc eL eR with
      | none =>
        simp only [mergeLoop, hR, hml] at hp
        obtain ⟨eL', hmem, hcase⟩ := ih (remKey rem k) p hp
        exact ⟨eL', List.mem_cons_of_mem _ hmem, hcase⟩
      | some e =>
        simp only [mergeLoop, hR, hml] at hp
        rcases mem_insSorted hp with h' | h'
        · refine ⟨eL, ?_, Or.inr ⟨eR, ?_, ?_⟩⟩
          · rw [h']
            exact List.mem_cons_self _ _
          · rw [h']
            exact hR
          · rw [h']
            exact hml
        · obtain ⟨eL', hmem, hcase⟩ := ih (remKey rem k) p h'
          exact ⟨eL', List.mem_cons_of_mem _ hmem, hcase⟩

theorem mem_mergeLoop_rem {V Vop : Type} (O : ValOps V Vop)
    (Rorig : List (Nat × Entry V)) (sc oc : VClock) :
    ∀ (les rem : List (Nat × Entry V)) (p : Nat × Entry V),
      p ∈ (mergeLoop O Rorig sc oc les rem).2 → p ∈ rem := by
  intro les
  induction les with
  | nil =>
    intro rem p hp
    simpa [mergeLoop] using hp
  | cons hd rest ih =>
    intro rem p hp
    obtain ⟨k, eL⟩ := hd
    cases hR : keyLookup Rorig k with
    | none =>
      simp only [mergeLoop, hR] at hp
      exact ih rem p hp
    | some eR =>
      simp only [mergeLoop, hR] at hp
      exact mem_remKey (ih (remKey rem k) p hp)

theorem mem_keepFold {V Vop : Type} (O : ValOps V Vop) (Lc : VClock) :
    ∀ (ps : List (Nat × Entry V)) {init : List (Nat × Entry V)} (p : Nat × Entry V),
      p ∈ ps.foldl (fun ks q =>
        match mergeLeftOnly O Lc q.2 with
        | none => ks
        | some e => insSorted ks q.1 e) init →
      p ∈ init ∨ ∃ q ∈ ps, mergeLeftOnly O Lc q.2 = some p.2 ∧ p.1 = q.1 := by
  intro ps
  induction ps with
  | nil =>
    intro init p hp
    exact Or.inl hp
  | cons hd tl ih =>
    intro init p hp
    simp only [List.foldl_cons] at hp
    cases hml : mergeLeftOnly O Lc hd.2 with
    | none =>
      rw [hml] at hp
      rcases ih p hp with h' | ⟨q, hq, hcase⟩
      · exact Or.inl h'
      · exact Or.inr ⟨q, List.mem_cons_of_mem _ hq, hcase⟩
    | some e =>
      rw [hml] at hp
      rcases ih p hp with h' | ⟨q, hq, hcase⟩
      · rcases mem_insSorted h' with h'' | h''
        · refine Or.inr ⟨hd, List.mem_cons_self _ _, ?_, ?_⟩
          · rw [h'']
            exact hml
          · rw [h'']
        · exact Or.inl h''
      · exact Or.inr ⟨q, List.mem_cons_of_mem _ hq, hcase⟩

theorem vcGet_of_mem_ksorted {u : VClock} (hs : KSorted u) {r : Nat × Nat}
    (h : r ∈ u) : vcGet u r.1 = r.2 := by
  have h2 : keyLookup u r.1 = some r.2 := keyLookup_ksorted_of_mem hs (by
    rw [show (r.1, r.2) = r from rfl]
    exact h)
  simp [vcGet, h2]

theorem mapInv_applyRm {V Vop : Type} (O : ValOps V Vop) {s : MapState V}
    (h : MapInv s) (k : Nat) (c : VClock) : MapInv (applyRm O s k c) := by
  obtain ⟨hclk, hent⟩ := h
  cases hk : keyLookup s.entries k with
  | none =>
    rw [applyRm_lookup_none O hk]
    exact ⟨hclk, hent⟩
  | some e =>
    have hmem := keyLookup_eq_some_mem hk
    have he := hent (k, e) hmem
    cases hemp : (vcSubtract e.clock c).isEmpty with
    | true =>
      rw [applyRm_lookup_some_empty O hk c hemp]
      refine ⟨hclk, ?_⟩
      intro p hp
      exact hent p (mem_remKey hp)
    | false =>
      rw [applyRm_lookup_some_nonempty O hk c hemp]
      refine ⟨hclk, ?_⟩
      intro p hp
      rcases mem_insSorted hp with h' | h'
      · rw [h']
        exact ⟨ksorted_vcSubtract he.1 c,
          vcDomBy_of_mem_subset he.2 fun q hq => mem_vcSubtract hq⟩
      · exact hent p h'

theorem foldRm_mapInv {V Vop : Type} (O : ValOps V Vop) (ps : List (VClock × Nat)) :
    ∀ {t : MapState V}, MapInv t →
      MapInv (ps.foldl (fun acc p => applyRm O acc p.2 p.1) t) := by
  induction ps with
  | nil =>
    intro t ht
    exact ht
  | cons hd tl ih =>
    intro t ht
    simp only [List.foldl_cons]
    exact ih (mapInv_applyRm O ht hd.2 hd.1)

theorem mapInv_applyDeferred {V Vop : Type} (O : ValOps V Vop) {s : MapState V}
    (h : MapInv s) : MapInv (applyDeferred O s) :=
  foldRm_mapInv O (defPairs s.deferred) h

theorem mapInv_applyMap {V Vop : Type} (O : ValOps V Vop) {s : MapState V}
    (h : MapInv s) (op : MapOp V Vop) : MapInv (applyMap O s op) := by
  cases op with
  | nop => exact h
  | rm c k => exact mapInv_applyRm O h k c
  | up d k vop =>
    by_cases hg : d.counter ≤ vcGet s.clock d.actor
    · rw [applyMap_up_stale O s k vop hg]
      exact h
    · rw [applyMap_up_fresh O s k vop hg]
      apply mapInv_applyDeferred
      have hE : KSorted ((keyLookup s.entries k).getD ⟨[], O.default⟩).clock ∧
          vcDomBy ((keyLookup s.entries k).getD ⟨[], O.default⟩).clock s.clock
            = true := by
        cases hk : keyLookup s.entries k with
        | none => exact ⟨List.Pairwise.nil, rfl⟩
        | some e0 => exact h.2 (k, e0) (keyLookup_eq_some_mem hk)
      refine ⟨ksorted_vcWitness h.1 d.actor d.counter, ?_⟩
      intro p hp
      rcases mem_insSorted hp with h' | h'
      · rw [h']
        constructor
        · exact ksorted_vcWitness hE.1 d.actor d.counter
        · apply vcDomBy_of_forall_get
          intro r hr
          rcases mem_vcWitness hr with h'' | h''
          · rw [h'']
            show d.counter ≤ vcGet (vcWitness s.clock d.actor d.counter) d.actor
            rw [vcGet_vcWitness, if_pos rfl]
            exact le_max_right _ _
          · have h3 := List.all_eq_true.mp hE.2 r h''
            simp only [decide_eq_true_eq] at h3
            exact le_trans h3 (vcGet_le_vcWitness _ _ _ _)
      · have h2 := h.2 p h'
        exact ⟨h2.1, vcDomBy_mono_right h2.2
          fun x => vcGet_le_vcWitness s.clock d.actor d.counter x⟩

theorem mapInv_mergeMap {V Vop : Type} (O : ValOps V Vop) {L R : MapState V}
    (hL : MapInv L) (hR : MapInv R) : MapInv (mergeMap O L R) := by
  rw [mergeMap_eq]
  apply mapInv_applyDeferred
  refine ⟨ksorted_vcMerge hL.1 R.clock, ?_⟩
  intro p hp
  rcases mem_keepFold O L.clock _ p hp with hp0 | ⟨q, hq, hml, hpk⟩
  · obtain ⟨eL, hmem, hcase⟩ :=
      mem_mergeLoop_keep O R.entries L.clock R.clock L.entries R.entries p hp0
    have hEL := hL.2 (p.1, eL) hmem
    rcases hcase with hml | ⟨eR, hRk, hmb⟩
    · obtain ⟨hks, hsub⟩ := mergeLeftOnly_entry_inv hml hEL.1
      refine ⟨hks, ?_⟩
      apply vcDomBy_of_forall_get
      intro r hr
      have hrB := List.all_eq_true.mp hEL.2 r (hsub r hr)
      simp only [decide_eq_true_eq] at hrB
      rw [vcGet_vcMerge hR.1 L.clock r.1]
      exact le_trans hrB (le_max_left _ _)
    · have hER := hR.2 (p.1, eR) (keyLookup_eq_some_mem hRk)
      obtain ⟨hks, hbound⟩ := mergeBoth_entry_inv hmb hEL.1 hER.1
      refine ⟨hks, ?_⟩
      apply vcDomBy_of_forall_get
      intro r hr
      have hr2 : vcGet p.2.clock r.1 = r.2 := vcGet_of_mem_ksorted hks hr
      have h3 := hbound r.1
      rw [hr2] at h3
      have h4 : vcGet eL.clock r.1 ≤ vcGet L.clock r.1 := vcGet_le_of_domBy hEL.2 r.1
      have h5 : vcGet eR.clock r.1 ≤ vcGet R.clock r.1 := vcGet_le_of_domBy hER.2 r.1
      rw [vcGet_vcMerge hR.1 L.clock r.1]
      refine le_trans h3 (max_le ?_ ?_)
      · exact le_trans h4 (le_max_left _ _)
      · exact le_trans h5 (le_max_right _ _)
  · have hqR : q ∈ R.entries :=
      mem_mergeLoop_rem O R.entries L.clock R.clock L.entries R.entries q hq
    have hEQ := hR.2 q hqR
    obtain ⟨hks, hsub⟩ := mergeLeftOnly_entry_inv hml hEQ.1
    refine ⟨hks, ?_⟩
    apply vcDomBy_of_forall_get
    intro r hr
    have hrB := List.all_eq_true.mp hEQ.2 r (hsub r hr)
    simp only [decide_eq_true_eq] at hrB
    rw [vcGet_vcMerge hR.1 L.clock r.1]
    exact le_trans hrB (le_max_right _ _)

theorem mapInv_truncateMap {V Vop : Type} (O : ValOps V Vop) {s : MapState V}
    (h : MapInv s) (c : VClock) : MapInv (truncateMap O s c) := by
  refine ⟨ksorted_vcSubtract h.1 c, ?_⟩
  intro p hp
  simp only [truncateMap] at hp
  rcases List.mem_filterMap.mp hp with ⟨q, hq, heq⟩
  split_ifs at heq with hemp
  injection heq with heq2
  rw [← heq2]
  have hq2 := h.2 q hq
  constructor
  · exact ksorted_vcSubtract hq2.1 c
  · apply vcDomBy_of_forall_get
    intro r hr
    have hrq : r ∈ q.2.clock := mem_vcSubtract hr
    have hrle : r.2 ≤ vcGet s.clock r.1 := by
      have h3 := List.all_eq_true.mp hq2.2 r hrq
      simpa using h3
    have hpred := (List.mem_filter.mp hr).2
    show r.2 ≤ vcGet (vcSubtract s.clock c) r.1
    rw [show vcGet (vcSubtract s.clock c) r.1 =
          (keyLookup (vcSubtract s.clock c) r.1).getD 0 from rfl,
        keyLookup_vcSubtract h.1]
    cases hks : keyLookup s.clock r.1 with
    | none =>
      have h0 : vcGet s.clock r.1 = 0 := by simp [vcGet, hks]
      show r.2 ≤ 0
      omega
    | some g =>
      have hg : vcGet s.clock r.1 = g := by simp [vcGet, hks]
      cases hkc : keyLookup c r.1 with
      | none =>
        show r.2 ≤ g
        omega
      | some cv =>
        rw [hkc] at hpred
        have hpred2 : cv < r.2 := by
          have h3 : decide (cv < r.2) = true := hpred
          exact of_decide_eq_true h3
        have hlt : cv < g := by omega
        show r.2 ≤ (if cv < g then some g else none).getD 0
        rw [if_pos hlt]
        show r.2 ≤ g
        omega

theorem reachable_mapInv {V Vop : Type} (O : ValOps V Vop) {s : MapState V}
    (h : Reachable O s) : MapInv s := by
  induction h with
  | new =>
    refine ⟨List.Pairwise.nil, ?_⟩
    intro p hp
    simp [mapNew] at hp
  | apply op h ih => exact mapInv_applyMap O ih op
  | merge h1 h2 ih1 ih2 => exact mapInv_mergeMap O ih1 ih2
  | trunc c h ih => exact mapInv_truncateMap O ih c

/-- C4: clock dominance.  For every Map state reachable from `Map::new()` by
any sequence of `apply`, `merge` and `truncate`, every entry clock is dominated
by the map clock (`self.clock ≥ entry.clock`); and whenever `apply_rm` stores a
key into `deferred`, the clock it is stored under is a clock already present in
`deferred` or it is the remove's clock and is not ≤ `self.clock` at that
moment. -/
theorem c4_clock_dominance {V Vop : Type} (O : ValOps V Vop) :
    (∀ s : MapState V, Reachable O s →
        ∀ p ∈ s.entries, vcDomBy p.2.clock s.clock = true) ∧
    (∀ (s : MapState V) (k : Nat) (c : VClock) (rec : VClock × List Nat),
        rec ∈ (applyRm O s k c).deferred →
        (∃ ks, (rec.1, ks) ∈ s.deferred) ∨
          (rec.1 = c ∧ vcLe c s.clock = false)) := by
  constructor
  · intro s hs p hp
    exact ((reachable_mapInv O hs).2 p hp).2
  · intro s k c rec hrec
    rw [applyRm_deferred] at hrec
    unfold rmDeferred at hrec
    split_ifs at hrec with hle
    · exact Or.inl ⟨rec.2, by
        rw [show (rec.1, rec.2) = rec from rfl]
        exact hrec⟩
    · rcases mem_defInsert_clock hrec with h' | h'
      · exact Or.inl h'
      · exact Or.inr ⟨h', Bool.eq_false_iff.mpr hle⟩

/-- Witness for C4: the invariant holds at the reachable replica `c1mapL`, and a
deferred insertion on the fresh map stores the undominated remove clock. -/
theorem c4_clock_dominance_witness :
    vcDomBy ((⟨[(1, 1)], [(1, 1)]⟩ : Entry VClock)).clock c1mapL.clock = true ∧
    ((∃ ks, (([(1, 1)] : VClock), ks) ∈ (mapNew VClock).deferred) ∨
      (([(1, 1)] : VClock) = [(1, 1)] ∧
        vcLe [(1, 1)] (mapNew VClock).clock = false)) :=
  ⟨(c4_clock_dominance vclockOps).1 c1mapL (Reachable.apply _ Reachable.new)
      (0, ⟨[(1, 1)], [(1, 1)]⟩) (by decide),
   (c4_clock_dominance vclockOps).2 (mapNew VClock) 5 [(1, 1)]
      ([(1, 1)], [5]) (by decide)⟩

/-! ### Claim C6 — the both-present merge branch -/

theorem mem_remKey_key_ne {β : Type _} {l : List (Nat × β)}
    (hnd : (l.map Prod.fst).Nodup) {k : Nat} {q : Nat × β}
    (hq : q ∈ remKey l k) : q.1 ≠ k := by
  induction l with
  | nil => simp [remKey] at hq
  | cons hd tl ih =>
    obtain ⟨a, b⟩ := hd
    have hnd' : (a :: tl.map Prod.fst).Nodup := by simpa using hnd
    have hnd2 := List.nodup_cons.mp hnd'
    simp only [remKey] at hq
    split_ifs at hq with h1
    · intro hc
      exact hnd2.1 (List.mem_map.mpr ⟨q, hq, by rw [hc]; exact h1⟩)
    · rcases List.mem_cons.mp hq with h' | h'
      · rw [h']
        intro hc
        exact h1 hc.symm
      · exact ih hnd2.2 h'

theorem nodupkeys_remKey {β : Type _} {l : List (Nat × β)}
    (hnd : (l.map Prod.fst).Nodup) (k : Nat) :
    ((remKey l k).map Prod.fst).Nodup :=
  List.Nodup.sublist (List.Sublist.map Prod.fst (remKey_sublist l k)) hnd

theorem mergeLoop_rem_final_ne {V Vop : Type} (O : ValOps V Vop)
    (Rorig : List (Nat × Entry V)) (sc oc : VClock) :
    ∀ (les rem : List (Nat × Entry V)) (k : Nat),
      (rem.map Prod.fst).Nodup →
      (∃ eL, keyLookup les k = some eL) →
      (∃ eR, keyLookup Rorig k = some eR) →
      ∀ q ∈ (mergeLoop O Rorig sc oc les rem).2, q.1 ≠ k := by
  intro les
  induction les with
  | nil =>
    intro rem k hnd hles hR q hq
    obtain ⟨eL, hles⟩ := hles
    simp [keyLookup] at hles
  | cons hd rest ih =>
    intro rem k hnd hles hR q hq
    obtain ⟨k0, eL0⟩ := hd
    by_cases hk : k = k0
    · subst hk
      obtain ⟨eR, hReq⟩ := hR
      cases hR0 : keyLookup Rorig k with
      | none =>
        rw [hR0] at hReq
        cases hReq
      | some eR0 =>
        simp only [mergeLoop, hR0] at hq
        have hq2 := mem_mergeLoop_rem O Rorig sc oc rest (remKey rem k) q hq
        exact mem_remKey_key_ne hnd hq2
    · obtain ⟨eL, hles⟩ := hles
      rw [keyLookup_cons, if_neg hk] at hles
      cases hR0 : keyLookup Rorig k0 with
      | none =>
        simp only [mergeLoop, hR0] at hq
        exact ih rem k hnd ⟨eL, hles⟩ hR q hq
      | some eR0 =>
        simp only [mergeLoop, hR0] at hq
        exact ih (remKey rem k0) k (nodupkeys_remKey hnd k0) ⟨eL, hles⟩ hR q hq

theorem keyLookup_mergeLoop_keep {V Vop : Type} (O : ValOps V Vop)
    (Rorig : List (Nat × Entry V)) (sc oc : VClock) :
    ∀ (les rem : List (Nat × Entry V)) (k : Nat),
      (les.map Prod.fst).Nodup →
      keyLookup (mergeLoop O Rorig sc oc les rem).1 k =
        match keyLookup les k with
        | none => none
        | some eL =>
          match keyLookup Rorig k with
          | none => mergeLeftOnly O oc eL
          | some eR => mergeBoth O sc oc eL eR := by
  intro les
  induction les with
  | nil =>
    intro rem k _
    rfl
  | cons hd rest ih =>
    intro rem k hnd
    obtain ⟨k0, eL0⟩ := hd
    have hnd' : (k0 :: rest.map Prod.fst).Nodup := by simpa using hnd
    have hnd2 := List.nodup_cons.mp hnd'
    have hlook_rec_none : k = k0 →
        keyLookup (mergeLoop O Rorig sc oc rest
          (match keyLookup Rorig k0 with
           | none => rem
           | some _ => remKey rem k0)).1 k = none := by
      intro hk
      subst hk
      apply keyLookup_eq_none_of_not_mem
      intro b hb
      obtain ⟨eL', hmem, hcase⟩ := mem_mergeLoop_keep O Rorig sc oc rest _ (k, b) hb
      exact hnd2.1 (List.mem_map.mpr ⟨(k, eL'), hmem, rfl⟩)
    by_cases hk : k = k0
    · subst hk
      rw [keyLookup_cons, if_pos rfl]
      cases hR0 : keyLookup Rorig k with
      | none =>
        cases hml : mergeLeftOnly O oc eL0 with
        | none =>
          simp only [mergeLoop, hR0, hml]
          have h2 := hlook_rec_none rfl
          rw [hR0] at h2
          exact h2
        | some e =>
          simp only [mergeLoop, hR0, hml]
          rw [keyLookup_insSorted, if_pos rfl]
      | some eR0 =>
        cases hml : mergeBoth O sc oc eL0 eR0 with
        | none =>
          simp only [mergeLoop, hR0, hml]
          have h2 := hlook_rec_none rfl
          rw [hR0] at h2
          exact h2
        | some e =>
          simp only [mergeLoop, hR0, hml]
          rw [keyLookup_insSorted, if_pos rfl]
    · rw [keyLookup_cons, if_neg hk]
      cases hR0 : keyLookup Rorig k0 with
      | none =>
        cases hml : mergeLeftOnly O oc eL0 with
        | none =>
          simp only [mergeLoop, hR0, hml]
          exact ih rem k hnd2.2
        | some e =>
          simp only [mergeLoop, hR0, hml]
          rw [keyLookup_insSorted, if_neg hk]
          exact ih rem k hnd2.2
      | some eR0 =>
        cases hml : mergeBoth O sc oc eL0 eR0 with
        | none =>
          simp only [mergeLoop, hR0, hml]
          exact ih (remKey rem k0) k hnd2.2
        | some e =>
          simp only [mergeLoop, hR0, hml]
          rw [keyLookup_insSorted, if_neg hk]
          exact ih (remKey rem k0) k hnd2.2

theorem keyLookup_keepFold_not_mem {V Vop : Type} (O : ValOps V Vop) (Lc : VClock) :
    ∀ (ps : List (Nat × Entry V)) {init : List (Nat × Entry V)} (k : Nat),
      (∀ q ∈ ps, q.1 ≠ k) →
      keyLookup (ps.foldl (fun ks q =>
        match mergeLeftOnly O Lc q.2 with
        | none => ks
        | some e => insSorted ks q.1 e) init) k = keyLookup init k := by
  intro ps
  induction ps with
  | nil =>
    intro init k _
    rfl
  | cons hd tl ih =>
    intro init k hne
    have hne' : ∀ q ∈ tl, q.1 ≠ k := fun q hq => hne q (List.mem_cons_of_mem _ hq)
    rw [List.foldl_cons]
    cases hml : mergeLeftOnly O Lc hd.2 with
    | none => exact ih k hne'
    | some e =>
      show keyLookup (tl.foldl _ (insSorted init hd.1 e)) k = keyLookup init k
      rw [ih k hne', keyLookup_insSorted, if_neg ?_]
      intro hc
      exact hne hd (List.mem_cons_self _ _) hc.symm

theorem mergeMap_of_no_deferred {V Vop : Type} (O : ValOps V Vop) (L R : MapState V)
    (hLd : L.deferred = []) (hRd : R.deferred = []) :
    mergeMap O L R =
      { clock := vcMerge L.clock R.clock,
        entries := (mergeLoop O R.entries L.clock R.clock L.entries R.entries).2.foldl
          (fun ks p =>
            match mergeLeftOnly O L.clock p.2 with
            | none => ks
            | some e => insSorted ks p.1 e)
          (mergeLoop O R.entries L.clock R.clock L.entries R.entries).1,
        deferred := [] } := by
  rw [mergeMap_eq, hRd, hLd]
  rfl

theorem keyLookup_mergeMap_both {V Vop : Type} (O : ValOps V Vop)
    {L R : MapState V} {k : Nat} {eL eR : Entry V}
    (hLs : (L.entries.map Prod.fst).Nodup) (hRs : (R.entries.map Prod.fst).Nodup)
    (hLk : keyLookup L.entries k = some eL) (hRk : keyLookup R.entries k = some eR)
    (hLd : L.deferred = []) (hRd : R.deferred = []) :
    keyLookup (mergeMap O L R).entries k = mergeBoth O L.clock R.clock eL eR := by
  rw [mergeMap_of_no_deferred O L R hLd hRd]
  show keyLookup ((mergeLoop O R.entries L.clock R.clock L.entries R.entries).2.foldl
      (fun ks p =>
        match mergeLeftOnly O L.clock p.2 with
        | none => ks
        | some e => insSorted ks p.1 e)
      (mergeLoop O R.entries L.clock R.clock L.entries R.entries).1) k =
    mergeBoth O L.clock R.clock eL eR
  rw [keyLookup_keepFold_not_mem O L.clock _ k
      (mergeLoop_rem_final_ne O R.entries L.clock R.clock L.entries R.entries k
        hRs ⟨eL, hLk⟩ ⟨eR, hRk⟩),
      keyLookup_mergeLoop_keep O R.entries L.clock R.clock L.entries R.entries k hLs,
      hLk, hRk]

/-- C6 (counterexample to the claimed truncation clock): at the concrete input
`c6mapL` / `c6mapR` — key 0 written on each side by the disjoint dots (1,1) and
(2,1) — the merged entry for key 0 differs from the claim's both-present branch,
which truncates the merged value by `(aliveL ∪ aliveR) ∖ common`.  The source
shadows `common` with the merged union before computing the subtraction, so the
code truncates by `(aliveL ∪ aliveR) ∖ union` — the empty clock — instead. -/
theorem c6_truncation_clock_counterexample :
    keyLookup (mergeMap vclockOps c6mapL c6mapR).entries 0 ≠
      mergeBothClaimed vclockOps c6mapL.clock c6mapR.clock
        ⟨[(1, 1)], [(1, 5)]⟩ ⟨[(2, 1)], []⟩ := by
  decide

/-- C6 (amended): merge both-present branch.  When merging maps `L` and `R`
whose deferred stores are empty and key `k` is present in both with entries
`eL`, `eR`, let `common = eL.clock ∩ eR.clock`,
`aliveL = eL.clock ∖ common ∖ R.clock`, `aliveR = eR.clock ∖ common ∖ L.clock`
and `union = common ∪ aliveL ∪ aliveR`; then the entry is dropped iff `union`
is empty, and otherwise the resulting entry has clock `union` and value equal
to `eL.val` merged with `eR.val` and then truncated by the clock
`(aliveL ∪ aliveR) ∖ union` — the source shadows `common` with the union before
the subtraction, so the truncation clock is not `(aliveL ∪ aliveR) ∖ common` as
claimed (it is in fact always empty). -/
theorem c6_both_present_branch {V Vop : Type} (O : ValOps V Vop)
    {L R : MapState V} {k : Nat} {eL eR : Entry V}
    (hLs : (L.entries.map Prod.fst).Nodup) (hRs : (R.entries.map Prod.fst).Nodup)
    (hLk : keyLookup L.entries k = some eL) (hRk : keyLookup R.entries k = some eR)
    (hLd : L.deferred = []) (hRd : R.deferred = []) :
    keyLookup (mergeMap O L R).entries k =
      (let common := vcIntersection eL.clock eR.clock
       let aliveL := vcSubtract (vcSubtract eL.clock common) R.clock
       let aliveR := vcSubtract (vcSubtract eR.clock common) L.clock
       let union := vcMerge (vcMerge common aliveL) aliveR
       if union.isEmpty then none
       else some ⟨union, O.truncate (O.merge eL.val eR.val)
         (vcSubtract (vcMerge aliveL aliveR) union)⟩) :=
  keyLookup_mergeMap_both O hLs hRs hLk hRk hLd hRd

/-- Witness for C6: the amended branch formula instantiated at the concrete
replicas `c6mapL` / `c6mapR` and key 0. -/
theorem c6_both_present_branch_witness :
    keyLookup (mergeMap vclockOps c6mapL c6mapR).entries 0 =
      (let common := vcIntersection ([(1, 1)] : VClock) ([(2, 1)] : VClock)
       let aliveL := vcSubtract (vcSubtract ([(1, 1)] : VClock) common) c6mapR.clock
       let aliveR := vcSubtract (vcSubtract ([(2, 1)] : VClock) common) c6mapL.clock
       let union := vcMerge (vcMerge common aliveL) aliveR
       if union.isEmpty then none
       else some ⟨union, vclockOps.truncate (vclockOps.merge [(1, 5)] [])
         (vcSubtract (vcMerge aliveL aliveR) union)⟩) :=
  @c6_both_present_branch VClock Dot vclockOps c6mapL c6mapR 0
    ⟨[(1, 1)], [(1, 5)]⟩ ⟨[(2, 1)], []⟩
    (by decide) (by decide) (by decide) (by decide) rfl rfl

/-- C2: reset-remove (the spec's scenario S1, with the spec-modelled multi-value
register as the nested value type, actors `a1 ≠ a2`, positive counters `n1, n2`,
key `k` and values `vb, vc`).  Replica X applies `Up{dot:(a1,n1), key:k,
put(vb)}`, replica Y clones X; X then applies `Rm{clock:(a1→n1), key:k}` — the
entry's own clock — while Y concurrently applies `Up{dot:(a2,n2), key:k,
put(vc)}` whose dot is not dominated by the remove clock.  Merging in either
direction yields the same state; its single entry under `k` has clock
`{a2→n2}` — it contains the concurrent dot and none of the dots of the remove
clock — and its value holds only the concurrent write `vc`; no deferred record
remains. -/
theorem c2_reset_remove (a1 a2 n1 n2 k vb vc : Nat)
    (hne : a1 ≠ a2) (h1 : 1 ≤ n1) (h2 : 1 ≤ n2) :
    mergeMap mvregOps
        (applyMap mvregOps
          (applyMap mvregOps (mapNew MVReg) (.up ⟨a1, n1⟩ k (.put [(a1, n1)] vb)))
          (.rm [(a1, n1)] k))
        (applyMap mvregOps
          (applyMap mvregOps (mapNew MVReg) (.up ⟨a1, n1⟩ k (.put [(a1, n1)] vb)))
          (.up ⟨a2, n2⟩ k (.put [(a2, n2)] vc))) =
      mergeMap mvregOps
        (applyMap mvregOps
          (applyMap mvregOps (mapNew MVReg) (.up ⟨a1, n1⟩ k (.put [(a1, n1)] vb)))
          (.up ⟨a2, n2⟩ k (.put [(a2, n2)] vc)))
        (applyMap mvregOps
          (applyMap mvregOps (mapNew MVReg) (.up ⟨a1, n1⟩ k (.put [(a1, n1)] vb)))
          (.rm [(a1, n1)] k)) ∧
    (mergeMap mvregOps
        (applyMap mvregOps
          (applyMap mvregOps (mapNew MVReg) (.up ⟨a1, n1⟩ k (.put [(a1, n1)] vb)))
          (.rm [(a1, n1)] k))
        (applyMap mvregOps
          (applyMap mvregOps (mapNew MVReg) (.up ⟨a1, n1⟩ k (.put [(a1, n1)] vb)))
          (.up ⟨a2, n2⟩ k (.put [(a2, n2)] vc)))).entries =
      [(k, ⟨[(a2, n2)], [([(a2, n2)], vc)]⟩)] ∧
    (mergeMap mvregOps
        (applyMap mvregOps
          (applyMap mvregOps (mapNew MVReg) (.up ⟨a1, n1⟩ k (.put [(a1, n1)] vb)))
          (.rm [(a1, n1)] k))
        (applyMap mvregOps
          (applyMap mvregOps (mapNew MVReg) (.up ⟨a1, n1⟩ k (.put [(a1, n1)] vb)))
          (.up ⟨a2, n2⟩ k (.put [(a2, n2)] vc)))).deferred = [] := by
  have hn1 : n1 ≠ 0 := by omega
  have hn2 : n2 ≠ 0 := by omega
  have hne' : a2 ≠ a1 := hne.symm
  have hX0 : applyMap mvregOps (mapNew MVReg) (.up ⟨a1, n1⟩ k (.put [(a1, n1)] vb)) =
      ⟨[(a1, n1)], [(k, ⟨[(a1, n1)], [([(a1, n1)], vb)]⟩)], []⟩ := by
    simp [applyMap, mapNew, vcGet, keyLookup, vcWitness, insSorted, mvApply, mvregOps,
      applyDeferred, defPairs, List.filter_cons, hn1]
  rw [hX0]
  have hX : applyMap mvregOps
      (⟨[(a1, n1)], [(k, ⟨[(a1, n1)], [([(a1, n1)], vb)]⟩)], []⟩ : MapState MVReg)
      (.rm [(a1, n1)] k) = ⟨[(a1, n1)], [], []⟩ := by
    simp [applyMap, applyRm, keyLookup, vcSubtract, rmDeferred, vcLe, remKey, mvregOps,
      List.filter_cons]
  rw [hX]
  rcases Nat.lt_trichotomy a1 a2 with hlt | heq | hgt
  · have hb : ¬ a2 < a1 := by omega
    have hY : applyMap mvregOps
        (⟨[(a1, n1)], [(k, ⟨[(a1, n1)], [([(a1, n1)], vb)]⟩)], []⟩ : MapState MVReg)
        (.up ⟨a2, n2⟩ k (.put [(a2, n2)] vc)) =
        ⟨[(a1, n1), (a2, n2)],
         [(k, ⟨[(a1, n1), (a2, n2)], [([(a1, n1)], vb), ([(a2, n2)], vc)]⟩)], []⟩ := by
      simp [applyMap, keyLookup, vcGet, vcWitness, insSorted, mvApply, vcLe, vcDomBy,
        applyDeferred, defPairs, mvregOps, List.filter_cons, hn1, hn2, hne, hne', hb]
    rw [hY]
    refine ⟨?_, ?_, ?_⟩ <;>
      simp [mergeMap, mergeLoop, mergeLeftOnly, keyLookup, vcSubtract, mvTruncate,
        vcMerge, vcWitness, vcGet, insSorted, defPairs, applyDeferred, vcLe, vcDomBy,
        mvregOps, remKey, List.filter_cons, List.filterMap_cons, hn1, hn2, hne, hne',
        hb, hlt]
  · exact absurd heq hne
  · have hb : ¬ a1 < a2 := by omega
    have hY : applyMap mvregOps
        (⟨[(a1, n1)], [(k, ⟨[(a1, n1)], [([(a1, n1)], vb)]⟩)], []⟩ : MapState MVReg)
        (.up ⟨a2, n2⟩ k (.put [(a2, n2)] vc)) =
        ⟨[(a2, n2), (a1, n1)],
         [(k, ⟨[(a2, n2), (a1, n1)], [([(a1, n1)], vb), ([(a2, n2)], vc)]⟩)], []⟩ := by
      simp [applyMap, keyLookup, vcGet, vcWitness, insSorted, mvApply, vcLe, vcDomBy,
        applyDeferred, defPairs, mvregOps, List.filter_cons, hn1, hn2, hne, hne', hgt]
    rw [hY]
    refine ⟨?_, ?_, ?_⟩ <;>
      simp [mergeMap, mergeLoop, mergeLeftOnly, keyLookup, vcSubtract, mvTruncate,
        vcMerge, vcWitness, vcGet, insSorted, defPairs, applyDeferred, vcLe, vcDomBy,
        mvregOps, remKey, List.filter_cons, List.filterMap_cons, hn1, hn2, hne, hne',
        hb, hgt]

/-- Witness for C2: the reset-remove scenario at the concrete instance
`a1 = 1, a2 = 2, n1 = n2 = 1, k = 7, vb = 10, vc = 20`. -/
theorem c2_reset_remove_witness :
    mergeMap mvregOps
        (applyMap mvregOps
          (applyMap mvregOps (mapNew MVReg) (.up ⟨1, 1⟩ 7 (.put [(1, 1)] 10)))
          (.rm [(1, 1)] 7))
        (applyMap mvregOps
          (applyMap mvregOps (mapNew MVReg) (.up ⟨1, 1⟩ 7 (.put [(1, 1)] 10)))
          (.up ⟨2, 1⟩ 7 (.put [(2, 1)] 20))) =
      mergeMap mvregOps
        (applyMap mvregOps
          (applyMap mvregOps (mapNew MVReg) (.up ⟨1, 1⟩ 7 (.put [(1, 1)] 10)))
          (.up ⟨2, 1⟩ 7 (.put [(2, 1)] 20)))
        (applyMap mvregOps
          (applyMap mvregOps (mapNew MVReg) (.up ⟨1, 1⟩ 7 (.put [(1, 1)] 10)))
          (.rm [(1, 1)] 7)) ∧
    (mergeMap mvregOps
        (applyMap mvregOps
          (applyMap mvregOps (mapNew MVReg) (.up ⟨1, 1⟩ 7 (.put [(1, 1)] 10)))
          (.rm [(1, 1)] 7))
        (applyMap mvregOps
          (applyMap mvregOps (mapNew MVReg) (.up ⟨1, 1⟩ 7 (.put [(1, 1)] 10)))
          (.up ⟨2, 1⟩ 7 (.put [(2, 1)] 20)))).entries =
      [(7, ⟨[(2, 1)], [([(2, 1)], 20)]⟩)] ∧
    (mergeMap mvregOps
        (applyMap mvregOps
          (applyMap mvregOps (mapNew MVReg) (.up ⟨1, 1⟩ 7 (.put [(1, 1)] 10)))
          (.rm [(1, 1)] 7))
        (applyMap mvregOps
          (applyMap mvregOps (mapNew MVReg) (.up ⟨1, 1⟩ 7 (.put [(1, 1)] 10)))
          (.up ⟨2, 1⟩ 7 (.put [(2, 1)] 20)))).deferred = [] :=
  c2_reset_remove 1 2 1 1 7 10 20 (by decide) (by decide) (by decide)

/-- C1 (failing input): Map merge is not commutative.  Replica L applied
`Up { dot: (1,1), key: 0 }` (value type `VClock`, nested op the dot itself);
replica R applied the op `Rm { clock: (1→1), key: 0 }` that `rm` synthesizes
from the `RmCtx` read off L, so R defers the remove.  `L.merge(&R)` keeps entry
0 — the replay of R's deferred remove runs against the pre-merge entries and its
effect is overwritten by `self.entries = keep` — while `R.merge(&L)` drops the
entry when the same deferred remove fires in the final drain.  Both states are
reachable through the public API, so `merge(A, B) == merge(B, A)` fails. -/
theorem c1_merge_not_commutative :
    mergeMap vclockOps c1mapL c1mapR ≠ mergeMap vclockOps c1mapR c1mapL := by
  decide

end Crdt
